import Mathlib

/-!
Verification of the azure-pipelines-analyzer core against its specification.

The TypeScript sources `src/lib/timeline.ts` and `src/lib/classification.ts`
are shallowly embedded below: pure functions become Lean functions, JS
numbers holding millisecond timestamps become `Int`, nullable values become
`Option`, records (`Record<string, T>`) become association lists in object
insertion order, and fallible functions return `Except`.  JS `Array.sort`
with a consistent comparator is modeled by a stable insertion sort.  The
host regular-expression engine is left abstract: it enters as a parameter
`regexTest : String → String → Option Bool`, where `none` models a pattern
whose compilation throws.  `String.prototype.localeCompare` is modeled
sign-faithfully by lexicographic comparison.
-/

/-- One record of the normalized timeline graph (interface `TimelineNode` of
`src/types/timeline.ts`).  `startTime`/`finishTime` are epoch milliseconds
(`Date` in the source); `order`/`queueId` are nullable finite numbers. -/
structure TimelineNode where
  id : String
  parentId : Option String
  type : String
  name : String
  identifier : Option String
  refName : Option String
  order : Option Int
  startTime : Option Int
  finishTime : Option Int
  durationMs : Int
  state : Option String
  result : Option String
  workerName : Option String
  queueId : Option Int
  taskName : Option String
  taskId : Option String
  childIds : List String
  depth : Nat
deriving DecidableEq

/-- A timed activity fed to the critical-path and parallelism engines
(interface `TimedActivity`, `timeline.ts`). -/
structure TimedActivity where
  id : String
  startMs : Int
  finishMs : Int
  durationMs : Int
deriving DecidableEq

/-- First-match lookup in an association list: the shallow embedding of a JS
`Record<string, T>` property read. -/
def alistGet? {α : Type} (m : List (String × α)) (k : String) : Option α :=
  (m.find? (fun p => p.1 == k)).map (fun p => p.2)

/-- Stable insertion of `x` into `l`: `x` goes in front of the first element
it compares strictly below, after every element it ties with. -/
def insertSorted {α : Type} (cmp : α → α → Int) (x : α) : List α → List α
  | [] => [x]
  | y :: rest => if cmp x y < 0 then x :: y :: rest else y :: insertSorted cmp x rest

/-- Stable sort by a comparator: the model of `Array.prototype.sort` for the
consistent comparators used in `timeline.ts`. -/
def stableSort {α : Type} (cmp : α → α → Int) (l : List α) : List α :=
  l.foldl (fun acc x => insertSorted cmp x acc) []

/-! ## Classification engine (`src/lib/classification.ts`) -/

/-- The five work categories (`WORK_CATEGORIES`). -/
inductive WorkCategory where
  | useful
  | setup
  | teardown
  | infrastructure
  | unclassified
deriving DecidableEq

/-- The JSON string of a work category. -/
def WorkCategory.toStr : WorkCategory → String
  | .useful => "useful"
  | .setup => "setup"
  | .teardown => "teardown"
  | .infrastructure => "infrastructure"
  | .unclassified => "unclassified"

/-- `isWorkCategory`: whether a string is one of the five category names. -/
def isWorkCategory (s : String) : Bool :=
  s == "useful" || s == "setup" || s == "teardown" || s == "infrastructure" ||
    s == "unclassified"

/-- Parse a category string known to be valid. -/
def workCategoryOfStr? (s : String) : Option WorkCategory :=
  if s == "useful" then some .useful
  else if s == "setup" then some .setup
  else if s == "teardown" then some .teardown
  else if s == "infrastructure" then some .infrastructure
  else if s == "unclassified" then some .unclassified
  else none

/-- The rule fields (`RULE_FIELDS`). -/
inductive RuleField where
  | name
  | type
  | identifier
  | refName
  | taskName
deriving DecidableEq

/-- The JSON string of a rule field. -/
def RuleField.toStr : RuleField → String
  | .name => "name"
  | .type => "type"
  | .identifier => "identifier"
  | .refName => "refName"
  | .taskName => "taskName"

/-- `isRuleField`: whether a string names a rule field. -/
def ruleFieldOfStr? (s : String) : Option RuleField :=
  if s == "name" then some .name
  else if s == "type" then some .type
  else if s == "identifier" then some .identifier
  else if s == "refName" then some .refName
  else if s == "taskName" then some .taskName
  else none

/-- The rule operators (`RULE_OPERATORS`). -/
inductive RuleOperator where
  | contains
  | startsWith
  | equals
  | regex
deriving DecidableEq

/-- The JSON string of a rule operator. -/
def RuleOperator.toStr : RuleOperator → String
  | .contains => "contains"
  | .startsWith => "startsWith"
  | .equals => "equals"
  | .regex => "regex"

/-- `isRuleOperator`: whether a string names a rule operator. -/
def ruleOperatorOfStr? (s : String) : Option RuleOperator :=
  if s == "contains" then some .contains
  else if s == "startsWith" then some .startsWith
  else if s == "equals" then some .equals
  else if s == "regex" then some .regex
  else none

/-- A classification rule (interface `ClassificationRule`). -/
structure ClassificationRule where
  id : String
  label : String
  enabled : Bool
  field : RuleField
  operator : RuleOperator
  value : String
  category : WorkCategory
deriving DecidableEq

/-- Where a node's category came from (the `source` field of
`ClassificationEntry`). -/
inductive ClassificationSource where
  | override
  | rule
  | default
deriving DecidableEq

/-- The classification result for one node (interface `ClassificationEntry`). -/
structure ClassificationEntry where
  category : WorkCategory
  matchedRuleId : Option String
  source : ClassificationSource
deriving DecidableEq

/-- `getFieldValue` (`classification.ts`): the string value of the configured
field, with `null` fields read as the empty string (`?? ""`). -/
def getFieldValue (node : TimelineNode) : RuleField → String
  | .name => node.name
  | .type => node.type
  | .identifier => node.identifier.getD ""
  | .refName => node.refName.getD ""
  | .taskName => node.taskName.getD ""

/-- Substring test on character lists: `String.prototype.includes`. -/
def listIncludes (hay needle : List Char) : Bool :=
  if needle.isPrefixOf hay then true
  else
    match hay with
    | [] => false
    | _ :: rest => listIncludes rest needle

/-- `isRuleMatch` (`classification.ts`): empty field value or empty rule value
never match; `contains`/`startsWith`/`equals` compare lowercased strings;
`regex` defers to the abstract engine `regexTest`, and a `none` result (a
pattern whose compilation throws) is treated as a non-match (`catch`). -/
def isRuleMatch (regexTest : String → String → Option Bool)
    (rule : ClassificationRule) (node : TimelineNode) : Bool :=
  let fieldValue := getFieldValue node rule.field
  if fieldValue.length == 0 || rule.value.length == 0 then false
  else
    let candidate := fieldValue.toLower
    let target := rule.value.toLower
    match rule.operator with
    | .contains => listIncludes candidate.toList target.toList
    | .startsWith => target.isPrefixOf candidate
    | .equals => candidate == target
    | .regex => (regexTest rule.value fieldValue).getD false

/-- The rule-iteration loop inside `classifyNode`: skip disabled rules, return
the first enabled match, fall through to the `unclassified` default. -/
def classifyWithRules (regexTest : String → String → Option Bool)
    (node : TimelineNode) : List ClassificationRule → ClassificationEntry
  | [] => ⟨.unclassified, none, .default⟩
  | r :: rest =>
    if r.enabled then
      if isRuleMatch regexTest r node then ⟨r.category, some r.id, .rule⟩
      else classifyWithRules regexTest node rest
    else classifyWithRules regexTest node rest

/-- `classifyNode` (`classification.ts`): override lookup first, then the
rule loop, then the default entry. -/
def classifyNode (regexTest : String → String → Option Bool)
    (node : TimelineNode) (rules : List ClassificationRule)
    (overrides : List (String × WorkCategory)) : ClassificationEntry :=
  match alistGet? overrides node.id with
  | some c => ⟨c, none, .override⟩
  | none => classifyWithRules regexTest node rules

/-! ## Node comparator (`compareNodes`, `timeline.ts`) -/

/-- Sign-faithful comparison of two nullable millisecond keys where a missing
value sorts last (`?.getTime() ?? Number.POSITIVE_INFINITY` in the source):
`none` means the keys are equal and the comparator falls through. -/
def compareMissingLast : Option Int → Option Int → Option Int
  | some l, some r => if l ≠ r then some (l - r) else none
  | some _, none => some (-1)
  | none, some _ => some 1
  | none, none => none

/-- Sign-faithful model of `String.prototype.localeCompare`: lexicographic
comparison of the two names. -/
def localeCmp (a b : String) : Int :=
  if a < b then -1 else if b < a then 1 else 0

/-- `compareNodes` (`timeline.ts`): numeric `order` difference when both are
present and differ, then start time ascending (missing last), then finish
time ascending (missing last), then name comparison. -/
def compareNodes (left right : TimelineNode) : Int :=
  match left.order, right.order with
  | some lo, some ro =>
    if lo ≠ ro then lo - ro
    else compareNodesByTime left right
  | _, _ => compareNodesByTime left right
where
  /-- The time/name fallthrough of `compareNodes`. -/
  compareNodesByTime (left right : TimelineNode) : Int :=
    match compareMissingLast left.startTime right.startTime with
    | some d => d
    | none =>
      match compareMissingLast left.finishTime right.finishTime with
      | some d => d
      | none => localeCmp left.name right.name

/-! ## Sweep-line coverage and concurrency (`computeCoverageAndConcurrency`) -/

/-- One start(+1)/finish(−1) event of the sweep line. -/
structure SweepEvent where
  timestamp : Int
  delta : Int
deriving DecidableEq

/-- The event comparator of `computeCoverageAndConcurrency`: time ascending;
at equal timestamps `right.delta - left.delta`, which orders larger deltas
(starts) first. -/
def sweepEventCmp (l r : SweepEvent) : Int :=
  if l.timestamp ≠ r.timestamp then l.timestamp - r.timestamp
  else r.delta - l.delta

/-- The result of the sweep (`{coveredMs, maxConcurrency}`). -/
structure CoverageResult where
  coveredMs : Int
  maxConcurrency : Int
deriving DecidableEq

/-- The event-processing loop of `computeCoverageAndConcurrency`. -/
def sweepLoop : List SweepEvent → Int → Int → Int → Int → CoverageResult
  | [], _, covered, _, maxC => ⟨covered, maxC⟩
  | e :: rest, prev, covered, active, maxC =>
    let covered' := if e.timestamp > prev ∧ active > 0
      then covered + (e.timestamp - prev) else covered
    let active' := active + e.delta
    sweepLoop rest e.timestamp covered' active' (max maxC active')

/-- `computeCoverageAndConcurrency` (`timeline.ts`): flatten the activities
into start/finish events, sort them, and sweep. -/
def computeCoverageAndConcurrency (activities : List TimedActivity) :
    CoverageResult :=
  let events := (activities.map
    (fun a => [SweepEvent.mk a.startMs 1, SweepEvent.mk a.finishMs (-1)])).flatten
  let sorted := stableSort sweepEventCmp events
  let prev0 := ((sorted.head?).map (fun e => e.timestamp)).getD 0
  sweepLoop sorted prev0 0 0 0

/-! ## Rule-set serialization (`serializeRuleSet`, `parseRuleSet`) -/

/-- A JSON value, as `JSON.parse` would deliver it.  `parseRuleSet` is
modeled on parsed values: the byte-level `JSON.parse`/`JSON.stringify` pair
is the host's and is assumed to round-trip.  Numbers are rationals so that
the `Number.isInteger` guard is meaningful. -/
inductive Json where
  | null
  | bool (b : Bool)
  | num (q : Rat)
  | str (s : String)
  | arr (elems : List Json)
  | obj (entries : List (String × Json))

/-- A JS property read `value[key]` on a parsed JSON value: named properties
live on objects only (arrays have index keys, and the keys read by
`parseRuleSet` are never numeric). -/
def Json.get? : Json → String → Option Json
  | .obj entries, k => alistGet? entries k
  | _, _ => none

mutual

/-- JS `String(value)` on a parsed JSON value (used in the unsupported-version
error message).  Non-integer number display is approximated by the rational
literal; integers, strings, booleans, `null` and `undefined` are exact. -/
def jsStringVal : Json → String
  | .null => "null"
  | .bool true => "true"
  | .bool false => "false"
  | .num q => if q.den = 1 then toString q.num else toString q
  | .str s => s
  | .arr xs => String.intercalate "," (jsStringList xs)
  | .obj _ => "[object Object]"

/-- `jsStringVal` over a list of array elements. -/
def jsStringList : List Json → List String
  | [] => []
  | x :: rest => jsStringVal x :: jsStringList rest

end

/-- JS `String(value)` where the value may be `undefined` (a missing
property). -/
def jsString : Option Json → String
  | none => "undefined"
  | some v => jsStringVal v

/-- A rule set (interface `RuleSet`): version tag, ordered rules, and the
per-node override map (association list in object insertion order). -/
structure RuleSet where
  version : Rat
  rules : List ClassificationRule
  overrides : List (String × WorkCategory)
deriving DecidableEq

/-- `RULE_SET_VERSION` (`classification.ts`). -/
def RULE_SET_VERSION : Rat := 1

/-- `generateRuleId` draws on `crypto.randomUUID()` or `Date.now()`; the
nondeterministic host call is modeled by a fixed placeholder string. -/
def generateRuleId : String := "rule-generated"

/-- `parseRule` (`classification.ts`): throws unless the entry is an object
(JS `typeof` counts arrays as objects and `null` is falsy), then rebuilds
every field with a fallback for a missing or invalid value. -/
def parseRule (ruleValue : Json) (index : Nat) : Except String ClassificationRule :=
  match ruleValue with
  | .arr _ | .obj _ =>
    let id := match ruleValue.get? "id" with
      | some (.str s) => if s.length > 0 then s else generateRuleId
      | _ => generateRuleId
    let label := match ruleValue.get? "label" with
      | some (.str s) => if s.length > 0 then s
          else "Imported rule " ++ toString (index + 1)
      | _ => "Imported rule " ++ toString (index + 1)
    let enabled := match ruleValue.get? "enabled" with
      | some (.bool b) => b
      | _ => true
    let field := match ruleValue.get? "field" with
      | some (.str s) => (ruleFieldOfStr? s).getD .name
      | _ => .name
    let operator := match ruleValue.get? "operator" with
      | some (.str s) => (ruleOperatorOfStr? s).getD .contains
      | _ => .contains
    let value := match ruleValue.get? "value" with
      | some (.str s) => s
      | _ => ""
    let category := match ruleValue.get? "category" with
      | some (.str s) => (workCategoryOfStr? s).getD .unclassified
      | _ => .unclassified
    .ok ⟨id, label, enabled, field, operator, value, category⟩
  | _ => .error ("Rule at index " ++ toString index ++ " must be an object.")

/-- `candidate.rules.map((v, i) => parseRule(v, i))` with a thrown error
propagating out of the whole import. -/
def parseRulesList : List Json → Nat → Except String (List ClassificationRule)
  | [], _ => .ok []
  | v :: rest, index => do
    let r ← parseRule v index
    let rs ← parseRulesList rest (index + 1)
    .ok (r :: rs)

/-- `parseOverrides` (`classification.ts`): a non-object value yields the
empty map (JS `typeof` counts arrays as objects, whose `Object.entries` are
index-keyed); entries whose value is not one of the five category strings
are silently dropped. -/
def parseOverrides (rawOverrides : Option Json) : List (String × WorkCategory) :=
  let entries : List (String × Json) := match rawOverrides with
    | some (.obj es) => es
    | some (.arr xs) => xs.enum.map (fun p => (toString p.1, p.2))
    | _ => []
  entries.foldl (fun acc kv =>
    match kv.2 with
    | .str s =>
      match workCategoryOfStr? s with
      | some c => acc ++ [(kv.1, c)]
      | none => acc
    | _ => acc) []

/-- The version coercion of `parseRuleSet`: a number that passes
`Number.isInteger` is kept, anything else becomes 0. -/
def coercedVersion (versionJ : Option Json) : Rat :=
  match versionJ with
  | some (.num q) => if q.den = 1 then q else 0
  | _ => 0

/-- `parseRuleSet` (`classification.ts`), modeled after `JSON.parse`: reject
non-objects, reject a version that does not equal `RULE_SET_VERSION`
(naming the raw value), reject a non-array `rules`, then parse rules and
overrides. -/
def parseRuleSet (parsed : Json) : Except String RuleSet :=
  match parsed with
  | .arr _ | .obj _ =>
    let versionJ := parsed.get? "version"
    let version := coercedVersion versionJ
    if version ≠ RULE_SET_VERSION then
      .error ("Unsupported rule file version '" ++ jsString versionJ ++ "'.")
    else
      match parsed.get? "rules" with
      | some (.arr ruleValues) =>
        match parseRulesList ruleValues 0 with
        | .ok rules => .ok ⟨version, rules, parseOverrides (parsed.get? "overrides")⟩
        | .error e => .error e
      | _ => .error "Rule file must include a rules array."
  | _ => .error "Rule file must be a JSON object."

/-- The JSON object `JSON.stringify` produces for one rule. -/
def ruleToJson (r : ClassificationRule) : Json :=
  .obj [("id", .str r.id), ("label", .str r.label), ("enabled", .bool r.enabled),
    ("field", .str r.field.toStr), ("operator", .str r.operator.toStr),
    ("value", .str r.value), ("category", .str r.category.toStr)]

/-- `serializeRuleSet` (`classification.ts`) composed with `JSON.parse`: the
JSON value whose pretty-printing `JSON.stringify(ruleSet, null, 2)`
returns. -/
def serializeRuleSet (ruleSet : RuleSet) : Json :=
  .obj [("version", .num ruleSet.version),
    ("rules", .arr (ruleSet.rules.map ruleToJson)),
    ("overrides", .obj (ruleSet.overrides.map (fun p => (p.1, Json.str p.2.toStr))))]

/-- `createDefaultRules` (`classification.ts`), verbatim. -/
def createDefaultRules : List ClassificationRule :=
  [⟨"setup-init-finalize", "Initialize/finalize tasks", true, .name, .regex,
    "(initialize job|pre-job|finalize job|post-job)", .setup⟩,
   ⟨"setup-download-secrets", "Download secrets/setup resources", true, .name, .regex,
    "(download secrets|checkout|set .* variable|prepare|setup)", .setup⟩,
   ⟨"infra-security-policy", "Security and policy checks", true, .name, .regex,
    "(codeql|governance|security|policy|compliance|validation|drift management)",
    .infrastructure⟩,
   ⟨"teardown-stop-cleanup", "Stop/cleanup tasks", true, .name, .regex,
    "(stop .*|cleanup|tear ?down|finalize)", .teardown⟩,
   ⟨"useful-build-test", "Build/test/publish work", true, .name, .regex,
    "(build|compile|restore|test|pack|publish|run)", .useful⟩]

/-- A JSON value JS counts as an object: a real object or an array. -/
def isObjLike (j : Json) : Prop := (∃ es, j = Json.obj es) ∨ (∃ xs, j = Json.arr xs)

/-- Fixture: the default rules at the supported version with one override. -/
def defaultRuleSetFixture : RuleSet :=
  ⟨RULE_SET_VERSION, createDefaultRules, [("node-1", .setup)]⟩

/-! ## Dependency edges (`buildDependencyEdges`, `timeline.ts`) -/

/-- The reason attached to an inferred dependency edge
(`DependencyReason`). -/
inductive DependencyReason where
  | parentChild
  | siblingOrder
deriving DecidableEq

/-- An inferred dependency edge (interface `DependencyEdge`; `from`/`to` in
the source are Lean keywords, hence `fromId`/`toId`). -/
structure DependencyEdge where
  fromId : String
  toId : String
  reason : DependencyReason
deriving DecidableEq

/-- The mutable state of `buildDependencyEdges`: the `dedupe` key set (keys
in insertion order) and the edge list. -/
structure EdgeState where
  dedupe : List String
  edges : List DependencyEdge
deriving DecidableEq

/-- The inner `addEdge` closure of `buildDependencyEdges`: drop self-edges,
drop edges whose concatenated string key `from ++ "->" ++ to` was already
seen (the source's `` `${from}->${to}` ``), append everything else. -/
def addEdge (st : EdgeState) (f t : String) (reason : DependencyReason) :
    EdgeState :=
  if f == t then st
  else if st.dedupe.contains (f ++ "->" ++ t) then st
  else ⟨st.dedupe ++ [f ++ "->" ++ t], st.edges ++ [⟨f, t, reason⟩]⟩

/-- `shouldAddSequentialEdge` (`timeline.ts`): when both the earlier finish
and the later start are known the timed check decides alone; otherwise two
known `order` values decide; otherwise assume sequential. -/
def shouldAddSequentialEdge (left right : TimelineNode) : Bool :=
  match left.finishTime, right.startTime with
  | some lf, some rs => lf ≤ rs
  | _, _ =>
    match left.order, right.order with
    | some lo, some ro => lo < ro
    | _, _ => true

/-- The per-node body of the `buildDependencyEdges` loop: one parent-child
edge per child, then one sibling-order candidate per consecutive child pair
(skipped when a child id does not resolve or the sequential check fails). -/
def processNode (nodesById : List (String × TimelineNode)) (st : EdgeState)
    (node : TimelineNode) : EdgeState :=
  let st1 := node.childIds.foldl (fun s c => addEdge s node.id c .parentChild) st
  (node.childIds.zip node.childIds.tail).foldl (fun s p =>
    match alistGet? nodesById p.1, alistGet? nodesById p.2 with
    | some c, some n =>
      if shouldAddSequentialEdge c n then addEdge s c.id n.id .siblingOrder else s
    | _, _ => s) st1

/-- `buildDependencyEdges` (`timeline.ts`): fold the per-node body over the
nodes in object insertion order (`Object.values(nodesById)`). -/
def buildDependencyEdges (nodesById : List (String × TimelineNode)) :
    List DependencyEdge :=
  ((nodesById.map (fun p => p.2)).foldl (processNode nodesById) ⟨[], []⟩).edges

/-- Proof artifact: the strings that can appear on either side of a dedupe
key built by `buildDependencyEdges` — the node ids and every child
reference. -/
def edgeKeyStrings (nodesById : List (String × TimelineNode)) : List String :=
  nodesById.map (fun q => q.2.id) ++ (nodesById.map (fun q => q.2.childIds)).flatten

/-! ## Depth assignment (`assignDepths`, `timeline.ts`) -/

/-- Update (or insert) a key in a depth map: the model of the mutable
`node.depth = ...` assignment, with depths kept in a side map keyed by node
id. -/
def alistSet (m : List (String × Nat)) (k : String) (v : Nat) :
    List (String × Nat) :=
  match m with
  | [] => [(k, v)]
  | (k', v') :: rest => if k' == k then (k, v) :: rest else (k', v') :: alistSet rest k v

/-- The traversal state of `assignDepths`: the `visited` and `inStack` sets
(insertion order), the depth assignments, and the warning list. -/
structure DepthState where
  visited : List String
  inStack : List String
  depths : List (String × Nat)
  warnings : List String
deriving DecidableEq

/-- The recursive `dfs` closure of `assignDepths`.  The source recursion
terminates because `visited` only grows; the embedding makes that explicit
with a fuel parameter, and `depthDfs_fuel_stable` shows the result is
independent of the fuel once it exceeds the number of unvisited keys — the
shallow form of the termination argument. -/
def depthDfs (nodesById : List (String × TimelineNode)) :
    Nat → String → Nat → DepthState → DepthState
  | 0, _, _, st => st
  | fuel + 1, nodeId, depth, st =>
    match alistGet? nodesById nodeId with
    | none => st
    | some node =>
      if nodeId ∈ st.inStack then
        { st with warnings := st.warnings ++ ["Detected cycle at '" ++ nodeId ++ "'."] }
      else if nodeId ∈ st.visited then
        { st with depths :=
            alistSet st.depths nodeId (min ((alistGet? st.depths nodeId).getD node.depth) depth) }
      else
        let st1 : DepthState := ⟨st.visited ++ [nodeId], st.inStack ++ [nodeId],
          alistSet st.depths nodeId depth, st.warnings⟩
        let st2 := node.childIds.foldl
          (fun s c => depthDfs nodesById fuel c (depth + 1) s) st1
        { st2 with inStack := st2.inStack.erase nodeId }

/-- `assignDepths` (`timeline.ts`): depth-first from the declared roots, then
a warning-producing fallback pass over every still-unvisited node. -/
def assignDepths (nodesById : List (String × TimelineNode)) (rootIds : List String)
    (fuel : Nat) : DepthState :=
  let st1 := rootIds.foldl (fun s r => depthDfs nodesById fuel r 0 s) ⟨[], [], [], []⟩
  nodesById.foldl (fun s p =>
    if p.2.id ∈ s.visited then s
    else depthDfs nodesById fuel p.2.id 0
      { s with warnings := s.warnings ++
        ["Reached disconnected node '" ++ p.2.id ++ "' from fallback traversal."] }) st1

/-- The number of map keys not yet visited: the termination measure of the
depth-first traversal. -/
def unvisitedKeyCount (m : List (String × TimelineNode)) (st : DepthState) : Nat :=
  ((m.map (fun p => p.1)).toFinset \ st.visited.toFinset).card


/-! ## Critical path and pipeline metrics (`src/lib/timeline.ts`) -/

/-- The result record of `computeCriticalPath` (interface `CriticalPathResult`). -/
structure CriticalPathResult where
  nodeIds : List String
  durationMs : Int
  explanation : String
deriving DecidableEq

/-- The activity sort comparator of `computeCriticalPath` (`timeline.ts` 441–446):
finish time ascending, ties broken by start time ascending. -/
def activityCmp (left right : TimedActivity) : Int :=
  if left.finishMs ≠ right.finishMs then left.finishMs - right.finishMs
  else left.startMs - right.startMs

/-- Placeholder for out-of-range indexed reads of the ordered activity list
(JS indexing past the end yields `undefined`; all reads below stay in range). -/
def dummyActivity : TimedActivity := ⟨"", 0, 0, 0⟩

/-- The binary search of `computeCriticalPath` (`timeline.ts` 452–467) locating
the last ordered activity that finishes at or before `startMs`, written as
structural recursion on a fuel that bounds the number of loop iterations. -/
def prevSearch (finishTimes : List Int) (startMs : Int) :
    Nat → Int → Int → Int → Int
  | 0, _, _, answer => answer
  | fuel + 1, low, high, answer =>
    if low ≤ high then
      let middle := (low + high) / 2
      if finishTimes.getD middle.toNat 0 ≤ startMs then
        prevSearch finishTimes startMs fuel (middle + 1) high middle
      else
        prevSearch finishTimes startMs fuel low (middle - 1) answer
    else answer

/-- `previousIndexes[i]` of `computeCriticalPath`: the binary search over the
first `i` ordered activities (fuel `i` covers the whole range). -/
def prevIndex (ordered : List TimedActivity) (i : Nat) : Int :=
  prevSearch (ordered.map (fun a => a.finishMs))
    ((ordered.getD i dummyActivity).startMs) i 0 ((i : Int) - 1) (-1)

/-- The DP table `best` of `computeCriticalPath` (`timeline.ts` 469–477):
entry `i` is the best total duration using the first `i` ordered activities. -/
def bestList (ordered : List TimedActivity) : Nat → List Int
  | 0 => [0]
  | i + 1 =>
    let prev := bestList ordered i
    let includeValue := (ordered.getD i dummyActivity).durationMs +
      prev.getD (prevIndex ordered i + 1).toNat 0
    let excludeValue := prev.getD i 0
    prev ++ [if includeValue ≥ excludeValue then includeValue else excludeValue]

/-- `includeValue` of the DP step (`timeline.ts` 473): duration of activity
`i` plus the best value at its predecessor. -/
def includeValue (ordered : List TimedActivity) (i : Nat) : Int :=
  (ordered.getD i dummyActivity).durationMs +
    (bestList ordered i).getD (prevIndex ordered i + 1).toNat 0

/-- `excludeValue` of the DP step (`timeline.ts` 474): the best value without
activity `i`. -/
def excludeValue (ordered : List TimedActivity) (i : Nat) : Int :=
  (bestList ordered i).getD i 0

/-- The `choose` table of `computeCriticalPath` (`timeline.ts` 470, 476):
entry `i + 1` records whether activity `i` was included (`includeValue >=
excludeValue`). -/
def chooseList (ordered : List TimedActivity) : Nat → List Bool
  | 0 => [false]
  | i + 1 => chooseList ordered i ++ [decide (includeValue ordered i ≥ excludeValue ordered i)]

/-- The reconstruction walk of `computeCriticalPath` (`timeline.ts` 481–494),
collecting chosen activity ids from the top of the table downwards. -/
def walkAux (ordered : List TimedActivity) (n : Nat) : Nat → Nat → List String
  | 0, _ => []
  | _ + 1, 0 => []
  | fuel + 1, i + 1 =>
    if (chooseList ordered n).getD (i + 1) false then
      (ordered.getD i dummyActivity).id ::
        walkAux ordered n fuel (prevIndex ordered i + 1).toNat
    else walkAux ordered n fuel i

/-- `computeCriticalPath` (`timeline.ts` 433–503): weighted interval
scheduling over the timed activities. -/
def computeCriticalPath (activities : List TimedActivity) : CriticalPathResult :=
  if activities.isEmpty then
    ⟨[], 0, "No timed records were available for critical-path inference."⟩
  else
    let ordered := stableSort activityCmp activities
    let n := ordered.length
    ⟨(walkAux ordered n n n).reverse, (bestList ordered n).getD n 0,
      "Critical path is inferred as the longest non-overlapping chain of timed execution records."⟩

/-- Proof artifact: the same reconstruction walk as `walkAux`, collecting the
chosen activities themselves instead of their ids. -/
def walkPath (ordered : List TimedActivity) (n : Nat) : Nat → Nat → List TimedActivity
  | 0, _ => []
  | _ + 1, 0 => []
  | fuel + 1, i + 1 =>
    if (chooseList ordered n).getD (i + 1) false then
      ordered.getD i dummyActivity ::
        walkPath ordered n fuel (prevIndex ordered i + 1).toNat
    else walkPath ordered n fuel i

-- quick sanity checks
example : computeCriticalPath [] = ⟨[], 0,
    "No timed records were available for critical-path inference."⟩ := rfl
example : (computeCriticalPath [⟨"a", 0, 5, 5⟩, ⟨"b", 5, 9, 4⟩, ⟨"c", 3, 6, 3⟩]).durationMs
    = 9 := by decide
example : (computeCriticalPath [⟨"a", 0, 5, 5⟩, ⟨"b", 5, 9, 4⟩, ⟨"c", 3, 6, 3⟩]).nodeIds
    = ["a", "b"] := by decide
-- tie: including c (0-5,w5) vs a+b (0-2,2-5 w 2+3): equal weight 5: tie prefers inclusion of later
example : (computeCriticalPath [⟨"a", 0, 2, 2⟩, ⟨"b", 2, 5, 3⟩, ⟨"c", 0, 5, 5⟩]).nodeIds
    = ["a", "b"] := by decide
example : (computeCriticalPath [⟨"a", 0, 2, 2⟩, ⟨"b", 2, 5, 3⟩, ⟨"c", 0, 5, 5⟩]).durationMs
    = 5 := by decide

/-- Shorthand for the DP table entry `best[i]`. -/
def bestVal (ordered : List TimedActivity) (i : Nat) : Int :=
  (bestList ordered i).getD i 0

/-- The min-start/max-finish summary (interface `RangeSummary`). -/
structure RangeSummary where
  minStartMs : Int
  maxFinishMs : Int
deriving DecidableEq

/-- `findTimelineRange` (`timeline.ts` 630–647): folds min start / max finish
over the timed nodes; `none` models the ±Infinity → `null` case of the
source (no timed node seen). -/
def findTimelineRange (nodes : List TimelineNode) : Option RangeSummary :=
  nodes.foldl (fun acc node =>
    match node.startTime, node.finishTime with
    | some s, some f =>
      match acc with
      | none => some ⟨s, f⟩
      | some r => some ⟨min r.minStartMs s, max r.maxFinishMs f⟩
    | _, _ => acc) none

/-- The normalized graph record (interface `TimelineGraph`); only the fields
read by the functions embedded here are given non-trivial use. -/
structure TimelineGraph where
  nodes : List TimelineNode
  nodesById : List (String × TimelineNode)
  rootIds : List String
  leafIds : List String
  stageIds : List String
  jobIds : List String
  stepIds : List String
  dependencyEdges : List DependencyEdge
  incomingDepsById : List (String × List String)
  outgoingDepsById : List (String × List String)
  warnings : List String

/-- The `wallClockDurationMs` computation of `computePipelineMetrics`
(`timeline.ts` 505–509). -/
def computeWallClockDurationMs (graph : TimelineGraph) : Int :=
  let timedNodes := graph.nodes.filter (fun n => n.startTime.isSome && n.finishTime.isSome)
  match findTimelineRange timedNodes with
  | none => 0
  | some range => max 0 (range.maxFinishMs - range.minStartMs)

/-- `computeDuration` (`timeline.ts` 267–272): `max 0 (finish - start)` when
both times are present, else 0; the normalizer sets `durationMs` to this. -/
def computeDuration (startTime finishTime : Option Int) : Int :=
  match startTime, finishTime with
  | some _, some _ => max 0 (finishTime.getD 0 - startTime.getD 0)
  | _, _ => 0

/-- `buildTimedActivities` (`timeline.ts` 413–431): the qualifying timed
activities for a list of node ids (node found, both times present, positive
duration). -/
def buildTimedActivities (nodesById : List (String × TimelineNode))
    (ids : List String) : List TimedActivity :=
  ids.foldl (fun acc id =>
    match alistGet? nodesById id with
    | some node =>
      match node.startTime, node.finishTime with
      | some s, some f =>
        if node.durationMs ≤ 0 then acc
        else acc ++ [⟨node.id, s, f, node.durationMs⟩]
      | _, _ => acc
    | none => acc) []

/-- The activity selection of `analyzeTimeline` (`timeline.ts` 92–96): step
activities (falling back to leaf ids when there are no steps), then job
activities when no step activity qualifies. -/
def selectCriticalPathActivities (graph : TimelineGraph) : List TimedActivity :=
  let stepActivityIds := if graph.stepIds.length > 0 then graph.stepIds else graph.leafIds
  let stepActivities := buildTimedActivities graph.nodesById stepActivityIds
  if stepActivities.length > 0 then stepActivities
  else buildTimedActivities graph.nodesById graph.jobIds


/-! ## Test fixtures used by witnesses and counterexamples -/

/-- Fixture: a node with the given id, `order` and times; the name equals the
id and every other attribute is empty, as `normalizeRecord` yields for a
minimal raw record. -/
def mkNode (id : String) (order startTime finishTime : Option Int) : TimelineNode :=
  { id := id, parentId := none, type := "Task", name := id, identifier := none,
    refName := none, order := order, startTime := startTime,
    finishTime := finishTime,
    durationMs := ((finishTime.getD 0) - (startTime.getD 0)).toNat,
    state := none, result := none, workerName := none, queueId := none,
    taskName := none, taskId := none, childIds := [], depth := 0 }

/-- Fixture: "Task A", running 0s–4s. -/
def actA : TimedActivity := ⟨"A", 0, 4000, 4000⟩

/-- Fixture: "Task B", running 4s–10s, starting the instant `actA` ends. -/
def actB : TimedActivity := ⟨"B", 4000, 10000, 6000⟩

/-- Fixture: an enabled contains-rule on the name field. -/
def ruleContainsTest : ClassificationRule :=
  ⟨"r-test", "Test rule", true, .name, .contains, "test", .useful⟩

/-- Fixture: a node named "Run Tests". -/
def nodeRunTests : TimelineNode := mkNode "n1" none (some 0) (some 1000)


/-- Fixture: a parent whose two children overlap in time. -/
def depParent : TimelineNode :=
  { mkNode "P" none (some 0) (some 20000) with childIds := ["A", "B"] }

/-- Fixture: sibling task A, 0s-10s, order 1. -/
def depA : TimelineNode := mkNode "A" (some 1) (some 0) (some 10000)

/-- Fixture: sibling task B, 5s-15s, order 2, overlapping A. -/
def depB : TimelineNode := mkNode "B" (some 2) (some 5000) (some 15000)

/-- Fixture: the node map holding the overlapping siblings. -/
def depMap : List (String × TimelineNode) :=
  [("P", depParent), ("A", depA), ("B", depB)]


/-- Fixture: a parent whose children are named "A" and "B->C". -/
def colP : TimelineNode :=
  { mkNode "P" none (some 0) (some 20000) with childIds := ["A", "B->C"] }

/-- Fixture: sibling "A", 0s-10s. -/
def colA : TimelineNode := mkNode "A" none (some 0) (some 10000)

/-- Fixture: sibling "B->C", 10s-20s, starting as `colA` ends. -/
def colBC : TimelineNode := mkNode "B->C" none (some 10000) (some 20000)

/-- Fixture: a second parent whose children are named "A->B" and "C". -/
def colQ : TimelineNode :=
  { mkNode "Q" none (some 0) (some 20000) with childIds := ["A->B", "C"] }

/-- Fixture: sibling "A->B", 0s-10s. -/
def colAB : TimelineNode := mkNode "A->B" none (some 0) (some 10000)

/-- Fixture: sibling "C", 10s-20s, starting as `colAB` ends. -/
def colC : TimelineNode := mkNode "C" none (some 10000) (some 20000)

/-- Fixture: the node map whose sibling pairs ("A", "B->C") and
("A->B", "C") produce the same dedupe key "A->B->C". -/
def colMap : List (String × TimelineNode) :=
  [("P", colP), ("A", colA), ("B->C", colBC),
   ("Q", colQ), ("A->B", colAB), ("C", colC)]


/-- Fixture: node A whose parent reference induces a two-cycle with B. -/
def cycA : TimelineNode :=
  { mkNode "A" none none none with parentId := some "B", childIds := ["B"] }

/-- Fixture: node B whose parent reference induces a two-cycle with A. -/
def cycB : TimelineNode :=
  { mkNode "B" none none none with parentId := some "A", childIds := ["A"] }

/-- Fixture: the node map of the A/B parent cycle; neither node is a root. -/
def cycMap : List (String × TimelineNode) := [("A", cycA), ("B", cycB)]


/-- Fixture: three timed activities, two chainable and one overlapping both. -/
def cpActs : List TimedActivity := [⟨"a", 0, 5, 5⟩, ⟨"b", 5, 9, 4⟩, ⟨"c", 3, 6, 3⟩]

/-- Fixture: a step node running 0–5ms. -/
def wcNodeA : TimelineNode := mkNode "a" none (some 0) (some 5)

/-- Fixture: a step node running 5–9ms, starting as `wcNodeA` ends. -/
def wcNodeB : TimelineNode := mkNode "b" none (some 5) (some 9)

/-- Fixture: a graph holding the two step nodes. -/
def wcGraph : TimelineGraph :=
  ⟨[wcNodeA, wcNodeB], [("a", wcNodeA), ("b", wcNodeB)], [], [], [], [],
    ["a", "b"], [], [], [], []⟩


/-! # Theorems -/

/-- Unfolding lemma: the rule loop of `classifyNode` returns the entry of the
first enabled matching rule, and the default entry when none matches. -/
theorem classifyWithRules_eq_find (regexTest : String → String → Option Bool)
    (node : TimelineNode) (rules : List ClassificationRule) :
    classifyWithRules regexTest node rules =
      match rules.find? (fun r => r.enabled && isRuleMatch regexTest r node) with
      | some r => ⟨r.category, some r.id, .rule⟩
      | none => ⟨.unclassified, none, .default⟩ := by
  induction rules with
  | nil => rfl
  | cons r rest ih =>
    by_cases he : r.enabled
    · by_cases hm : isRuleMatch regexTest r node
      · simp [classifyWithRules, he, hm, List.find?]
      · simp [classifyWithRules, he, hm, List.find?, ih]
    · simp [classifyWithRules, he, List.find?, ih]

/-- C5: `classifyNode` returns the override category with source "override"
whenever an override exists for the node's id, regardless of the rules;
otherwise the category of the first enabled rule in list order whose
operator test matches (source "rule"); otherwise "unclassified" with
source "default".  A regex whose compilation fails (`regexTest` returns
`none`) is treated as non-matching rather than throwing. -/
theorem classifyNode_spec (regexTest : String → String → Option Bool)
    (node : TimelineNode) (rules : List ClassificationRule)
    (overrides : List (String × WorkCategory)) :
    (∀ c, alistGet? overrides node.id = some c →
      classifyNode regexTest node rules overrides = ⟨c, none, .override⟩) ∧
    (alistGet? overrides node.id = none →
      classifyNode regexTest node rules overrides =
        match rules.find? (fun r => r.enabled && isRuleMatch regexTest r node) with
        | some r => ⟨r.category, some r.id, .rule⟩
        | none => ⟨.unclassified, none, .default⟩) ∧
    (∀ rule : ClassificationRule, rule.operator = .regex →
      regexTest rule.value (getFieldValue node rule.field) = none →
      isRuleMatch regexTest rule node = false) := by
  refine ⟨?_, ?_, ?_⟩
  · intro c hc
    simp [classifyNode, hc]
  · intro hn
    simp [classifyNode, hn, classifyWithRules_eq_find]
  · intro rule hop hre
    by_cases hempty :
        ((getFieldValue node rule.field).length == 0 || rule.value.length == 0) = true
    · simp [isRuleMatch, hempty]
    · simp [isRuleMatch, hempty, hop, hre]

/-- C5 witness: an override beats an enabled matching rule on a concrete node. -/
theorem classifyNode_spec_witness :
    classifyNode (fun _ _ => none) nodeRunTests [ruleContainsTest]
      [("n1", WorkCategory.setup)] = ⟨.setup, none, .override⟩ :=
  (classifyNode_spec (fun _ _ => none) nodeRunTests [ruleContainsTest]
    [("n1", WorkCategory.setup)]).1 WorkCategory.setup (by decide)

/-- C10: a rule with an empty match value, or applied to a node whose
configured field value is empty or missing, never matches; consequently a
rule list in which every rule has an empty value classifies every node as
unclassified (absent an override), even though an empty pattern would match
every string under ordinary string/regex semantics. -/
theorem emptyRule_never_matches (regexTest : String → String → Option Bool)
    (rule : ClassificationRule) (node : TimelineNode)
    (rules : List ClassificationRule) (overrides : List (String × WorkCategory)) :
    (rule.value = "" ∨ getFieldValue node rule.field = "" →
      isRuleMatch regexTest rule node = false) ∧
    ((∀ r ∈ rules, r.value = "") → alistGet? overrides node.id = none →
      classifyNode regexTest node rules overrides =
        ⟨.unclassified, none, .default⟩) := by
  have base : ∀ r : ClassificationRule,
      r.value = "" ∨ getFieldValue node r.field = "" →
      isRuleMatch regexTest r node = false := by
    intro r h
    rcases h with h | h <;> simp [isRuleMatch, h]
  refine ⟨base rule, ?_⟩
  intro hall hov
  have hfind : rules.find? (fun r => r.enabled && isRuleMatch regexTest r node)
      = none := by
    rw [List.find?_eq_none]
    intro r hr
    simp [base r (Or.inl (hall r hr))]
  simpa [hfind] using (classifyNode_spec regexTest node rules overrides).2.1 hov

/-- C10 witness: an enabled empty-valued contains-rule does not classify a
node with a non-empty name. -/
theorem emptyRule_never_matches_witness :
    isRuleMatch (fun _ _ => some true)
      ⟨"r0", "Empty", true, .name, .contains, "", .useful⟩ nodeRunTests = false ∧
    classifyNode (fun _ _ => some true) nodeRunTests
      [⟨"r0", "Empty", true, .name, .contains, "", .useful⟩] [] =
      ⟨.unclassified, none, .default⟩ := by
  refine ⟨?_, ?_⟩
  · exact (emptyRule_never_matches (fun _ _ => some true) _ nodeRunTests [] []).1
      (Or.inl rfl)
  · exact (emptyRule_never_matches (fun _ _ => some true)
      ⟨"r0", "Empty", true, .name, .contains, "", .useful⟩ nodeRunTests
      [⟨"r0", "Empty", true, .name, .contains, "", .useful⟩] []).2
      (by intro r hr; simp at hr; subst hr; rfl) rfl

/-- Swapping the arguments of `compareMissingLast` negates its result. -/
theorem compareMissingLast_swap (x y : Option Int) :
    compareMissingLast y x = (compareMissingLast x y).map (fun d => -d) := by
  cases x with
  | none => cases y <;> simp [compareMissingLast]
  | some l =>
    cases y with
    | none => simp [compareMissingLast]
    | some r =>
      by_cases h : l = r
      · subst h; simp [compareMissingLast]
      · simp [compareMissingLast, h, Ne.symm h]

/-- Swapping the arguments of the name comparison negates its result. -/
theorem localeCmp_swap (a b : String) : localeCmp b a = -localeCmp a b := by
  rcases lt_trichotomy a b with h | h | h
  · simp [localeCmp, h, asymm h]
  · subst h; simp [localeCmp, lt_irrefl]
  · simp [localeCmp, h, asymm h]

/-- Swapping the arguments of the time/name fallthrough negates its result. -/
theorem compareNodesByTime_swap (a b : TimelineNode) :
    compareNodes.compareNodesByTime b a = -compareNodes.compareNodesByTime a b := by
  unfold compareNodes.compareNodesByTime
  rw [compareMissingLast_swap a.startTime b.startTime,
    compareMissingLast_swap a.finishTime b.finishTime]
  cases compareMissingLast a.startTime b.startTime with
  | some d => rfl
  | none =>
    cases compareMissingLast a.finishTime b.finishTime with
    | some d => rfl
    | none => exact localeCmp_swap a.name b.name

/-- Swapping the arguments of `compareNodes` negates its result. -/
theorem compareNodes_swap (a b : TimelineNode) :
    compareNodes b a = -compareNodes a b := by
  unfold compareNodes
  cases ho1 : a.order with
  | none =>
    cases ho2 : b.order <;> simpa using compareNodesByTime_swap a b
  | some lo =>
    cases ho2 : b.order with
    | none => simpa using compareNodesByTime_swap a b
    | some ro =>
      by_cases h : lo = ro
      · subst h
        simpa using compareNodesByTime_swap a b
      · have h1 : ro ≠ lo := Ne.symm h
        simp only [ne_eq, h, h1, not_false_iff, if_true, if_pos]
        omega

/-- C9 counterexample: `compareNodes` is not transitive, hence not a total
order.  The node with `order` 1 and start 100 sorts before the node with
`order` 2 and start 0 (by the order field), which sorts before the
order-less node with start 50 (by start time), which in turn sorts before
the first node (by start time) — a strict cycle. -/
theorem compareNodes_not_transitive :
    ¬ ∀ x y z : TimelineNode, compareNodes x y < 0 → compareNodes y z < 0 →
      compareNodes x z < 0 := by
  intro h
  have hc := h (mkNode "A" (some 1) (some 100) none)
    (mkNode "C" (some 2) (some 0) none)
    (mkNode "B" none (some 50) none) (by decide) (by decide)
  exact absurd hc (by decide)

/-- C9 amended: the comparator is deterministic and consistent — swapping the
arguments negates the result, so for each pair of nodes exactly one of
before/equal/after holds, the same in both directions — but it is not
transitive (see the counterexample), hence not a total order on nodes. -/
theorem compareNodes_consistent (a b : TimelineNode) :
    compareNodes b a = -compareNodes a b ∧
    (compareNodes a b < 0 ∨ compareNodes a b = 0 ∨ 0 < compareNodes a b) :=
  ⟨compareNodes_swap a b, by omega⟩

/-- `insertSorted` into the empty list. -/
theorem insertSorted_nil {α : Type} (cmp : α → α → Int) (x : α) :
    insertSorted cmp x [] = [x] := rfl

/-- `insertSorted` places `x` in front of a head it compares strictly below. -/
theorem insertSorted_lt {α : Type} {cmp : α → α → Int} {x y : α} (l : List α)
    (h : cmp x y < 0) : insertSorted cmp x (y :: l) = x :: y :: l := by
  simp [insertSorted, h]

/-- `insertSorted` passes a head it does not compare strictly below. -/
theorem insertSorted_ge {α : Type} {cmp : α → α → Int} {x y : α} (l : List α)
    (h : ¬ cmp x y < 0) :
    insertSorted cmp x (y :: l) = y :: insertSorted cmp x l := by
  simp [insertSorted, h]

/-- C2 counterexample: for Task A running 0–4s and Task B running 4–10s —
one finishing at exactly the instant the other starts — the sweep line
reports a maximum simultaneous concurrency of 2, not 1: the event
comparator `right.delta - left.delta` orders the start event before the
finish event at the shared timestamp. -/
theorem sweepLine_tie_counterexample :
    computeCoverageAndConcurrency [actA, actB] = ⟨10000, 2⟩ ∧
    (computeCoverageAndConcurrency [actA, actB]).maxConcurrency ≠ 1 := by
  decide

/-- C2 amended: in the parallelism sweep-line, events at the same timestamp
are ordered start-before-finish (the comparator sorts the larger delta
first), so for any two activities where one finishes at exactly the instant
the other starts, the maximum simultaneous concurrency reported is 2,
not 1. -/
theorem sweepLine_touching_overlap (a b : TimedActivity)
    (hab : a.finishMs = b.startMs) (ha : a.startMs < a.finishMs)
    (hb : b.startMs < b.finishMs) :
    sweepEventCmp ⟨a.finishMs, 1⟩ ⟨a.finishMs, -1⟩ < 0 ∧
    (computeCoverageAndConcurrency [a, b]).maxConcurrency = 2 := by
  constructor
  · simp [sweepEventCmp]
  set e1 : SweepEvent := ⟨a.startMs, 1⟩ with he1
  set e2 : SweepEvent := ⟨a.finishMs, -1⟩ with he2
  set e3 : SweepEvent := ⟨b.startMs, 1⟩ with he3
  set e4 : SweepEvent := ⟨b.finishMs, -1⟩ with he4
  have hc21 : ¬ sweepEventCmp e2 e1 < 0 := by
    simp only [sweepEventCmp, he2, he1]
    rw [if_pos (by simpa using (by omega : a.finishMs ≠ a.startMs))]
    omega
  have hc31 : ¬ sweepEventCmp e3 e1 < 0 := by
    simp only [sweepEventCmp, he3, he1]
    rw [if_pos (by simpa using (by omega : b.startMs ≠ a.startMs))]
    omega
  have hc32 : sweepEventCmp e3 e2 < 0 := by
    simp only [sweepEventCmp, he3, he2]
    rw [if_neg (by simpa using hab.symm)]
    omega
  have hc41 : ¬ sweepEventCmp e4 e1 < 0 := by
    simp only [sweepEventCmp, he4, he1]
    rw [if_pos (by simpa using (by omega : b.finishMs ≠ a.startMs))]
    omega
  have hc43 : ¬ sweepEventCmp e4 e3 < 0 := by
    simp only [sweepEventCmp, he4, he3]
    rw [if_pos (by simpa using (by omega : b.finishMs ≠ b.startMs))]
    omega
  have hc42 : ¬ sweepEventCmp e4 e2 < 0 := by
    simp only [sweepEventCmp, he4, he2]
    rw [if_pos (by simpa using (by omega : b.finishMs ≠ a.finishMs))]
    omega
  have hsort : stableSort sweepEventCmp [e1, e2, e3, e4] = [e1, e3, e2, e4] := by
    simp only [stableSort, List.foldl]
    rw [insertSorted_nil, insertSorted_ge _ hc21, insertSorted_nil,
      insertSorted_ge _ hc31, insertSorted_lt _ hc32, insertSorted_ge _ hc41,
      insertSorted_ge _ hc43, insertSorted_ge _ hc42, insertSorted_nil]
  simp only [computeCoverageAndConcurrency, List.map_cons, List.map_nil,
    List.flatten_cons, List.flatten_nil, List.cons_append, List.nil_append,
    List.append_nil]
  rw [hsort]
  simp only [List.head?, Option.map_some, Option.getD_some, sweepLoop]
  omega

/-- C2 amended, witness: the 0–4s/4–10s pair from the spec scenario. -/
theorem sweepLine_touching_overlap_witness :
    sweepEventCmp ⟨actA.finishMs, 1⟩ ⟨actA.finishMs, -1⟩ < 0 ∧
    (computeCoverageAndConcurrency [actA, actB]).maxConcurrency = 2 :=
  sweepLine_touching_overlap actA actB (by decide) (by decide) (by decide)

/-- `parseOverrides` on an object equals a filter of its entries: string
values naming a valid category are kept, everything else is dropped. -/
theorem parseOverrides_obj (es : List (String × Json)) :
    parseOverrides (some (.obj es)) = es.filterMap (fun kv =>
      match kv.2 with
      | .str s => (workCategoryOfStr? s).map (fun c => (kv.1, c))
      | _ => none) := by
  have aux : ∀ (l : List (String × Json)) (acc : List (String × WorkCategory)),
      (l.foldl (fun acc kv =>
        match kv.2 with
        | .str s =>
          match workCategoryOfStr? s with
          | some c => acc ++ [(kv.1, c)]
          | none => acc
        | _ => acc) acc) = acc ++ l.filterMap (fun kv =>
          match kv.2 with
          | .str s => (workCategoryOfStr? s).map (fun c => (kv.1, c))
          | _ => none) := by
    intro l
    induction l with
    | nil => intro acc; simp
    | cons kv rest ih =>
      intro acc
      obtain ⟨k, v⟩ := kv
      cases v with
      | str s =>
        cases hc : workCategoryOfStr? s with
        | some c => simp [List.foldl, ih, hc]
        | none => simp [List.foldl, ih, hc]
      | null => simp [List.foldl, ih]
      | bool b => simp [List.foldl, ih]
      | num q => simp [List.foldl, ih]
      | arr xs => simp [List.foldl, ih]
      | obj es2 => simp [List.foldl, ih]
  simpa [parseOverrides] using aux es []

/-- `parseRule` succeeds on every object-like entry. -/
theorem parseRule_objLike (v : Json) (i : Nat) (hv : isObjLike v) :
    ∃ r, parseRule v i = .ok r := by
  rcases hv with ⟨es, rfl⟩ | ⟨xs, rfl⟩ <;> exact ⟨_, rfl⟩

/-- `parseRulesList` succeeds when every entry is object-like, producing one
rule per entry. -/
theorem parseRules_allOk (l : List Json) (hall : ∀ v ∈ l, isObjLike v) :
    ∀ k : Nat, ∃ rules, parseRulesList l k = .ok rules ∧
      rules.length = l.length := by
  induction l with
  | nil => intro k; exact ⟨[], rfl, rfl⟩
  | cons x rest ih =>
    intro k
    obtain ⟨r, hr⟩ := parseRule_objLike x k (hall x (by simp))
    obtain ⟨rules, hrules, hlen⟩ := ih (fun v hv => hall v (by simp [hv])) (k + 1)
    refine ⟨r :: rules, ?_, by simp [hlen]⟩
    simp [parseRulesList, hr, hrules, Except.bind]
    rfl

/-- C7 amended: `parseRuleSet` throws an error naming the unsupported value
for any object-like payload whose (integer-coerced) version does not equal
the supported constant; throws when the `rules` field is not an array;
never throws on a malformed rule entry that is itself a JSON object or
array, reconstructing it with fallback values; and silently drops any
override entry whose category is not one of the five known categories.  (A
rule entry that is `null`, a boolean, a number, or a string *does* throw —
see the counterexample.) -/
theorem parseRuleSet_spec (j : Json) (hj : isObjLike j) :
    (coercedVersion (j.get? "version") ≠ RULE_SET_VERSION →
      parseRuleSet j = .error
        ("Unsupported rule file version '" ++ jsString (j.get? "version") ++ "'.")) ∧
    (coercedVersion (j.get? "version") = RULE_SET_VERSION →
      (¬ ∃ rvs, j.get? "rules" = some (.arr rvs)) →
      parseRuleSet j = .error "Rule file must include a rules array.") ∧
    (∀ (v : Json) (i : Nat), isObjLike v → ∃ r, parseRule v i = .ok r) ∧
    (∀ rvs, coercedVersion (j.get? "version") = RULE_SET_VERSION →
      j.get? "rules" = some (.arr rvs) → (∀ v ∈ rvs, isObjLike v) →
      ∃ rules, parseRuleSet j =
          .ok ⟨RULE_SET_VERSION, rules, parseOverrides (j.get? "overrides")⟩ ∧
        rules.length = rvs.length) ∧
    (∀ es, parseOverrides (some (.obj es)) = es.filterMap (fun kv =>
      match kv.2 with
      | .str s => (workCategoryOfStr? s).map (fun c => (kv.1, c))
      | _ => none)) := by
  refine ⟨?_, ?_, parseRule_objLike, ?_, parseOverrides_obj⟩
  · intro hne
    rcases hj with ⟨es, rfl⟩ | ⟨xs, rfl⟩ <;>
      · simp only [parseRuleSet]
        rw [if_pos hne]
  · intro hv hnr
    rcases hj with ⟨es, rfl⟩ | ⟨xs, rfl⟩ <;>
      · simp only [parseRuleSet]
        rw [if_neg (by simp [hv])]
        rcases hrule : Json.get? _ "rules" with _ | jv
        · rfl
        · cases jv with
          | arr rvs => exact absurd ⟨rvs, hrule⟩ hnr
          | null => rfl
          | bool b => rfl
          | num q => rfl
          | str s => rfl
          | obj es2 => rfl
  · intro rvs hv hrules hall
    obtain ⟨rules, hok, hlen⟩ := parseRules_allOk rvs hall 0
    refine ⟨rules, ?_, hlen⟩
    rcases hj with ⟨es, rfl⟩ | ⟨xs, rfl⟩ <;>
      · simp only [parseRuleSet]
        rw [if_neg (by simp [hv])]
        rw [hrules]
        simp [hok, hv]

/-- C7 witness: a version-2 payload is rejected with an error naming "2". -/
theorem parseRuleSet_spec_witness :
    parseRuleSet (.obj [("version", .num 2), ("rules", .arr [])]) =
      .error "Unsupported rule file version '2'." :=
  (parseRuleSet_spec (.obj [("version", .num 2), ("rules", .arr [])])
    (Or.inl ⟨_, rfl⟩)).1 (by decide)

/-- C7 counterexample: a payload whose `rules` array holds the number 5 — a
single malformed rule entry — makes `parseRuleSet` throw "Rule at index 0
must be an object." instead of reconstructing the rule with fallbacks. -/
theorem parseRuleSet_nonobject_rule_throws :
    parseRuleSet (.obj [("version", .num 1), ("rules", .arr [.num 5])]) =
      .error "Rule at index 0 must be an object." ∧
    ∀ rs, parseRuleSet (.obj [("version", .num 1), ("rules", .arr [.num 5])]) ≠
      .ok rs := by
  refine ⟨rfl, ?_⟩
  intro rs h
  rw [show parseRuleSet (.obj [("version", .num 1), ("rules", .arr [.num 5])]) =
    .error "Rule at index 0 must be an object." from rfl] at h
  exact Except.noConfusion h

/-- A non-empty string has positive length. -/
theorem strLenPos (s : String) (hs : s ≠ "") : s.length > 0 := by
  cases s with
  | mk data =>
    cases data with
    | nil => exact absurd rfl hs
    | cons c cs =>
      show (String.mk (c :: cs)).data.length > 0
      simp

/-- Category strings round-trip through `workCategoryOfStr?`. -/
theorem catRT (c : WorkCategory) : workCategoryOfStr? (WorkCategory.toStr c) = some c := by
  cases c <;> rfl

/-- Field strings round-trip through `ruleFieldOfStr?`. -/
theorem fieldRT (f : RuleField) : ruleFieldOfStr? (RuleField.toStr f) = some f := by
  cases f <;> rfl

/-- Operator strings round-trip through `ruleOperatorOfStr?`. -/
theorem opRT (o : RuleOperator) : ruleOperatorOfStr? (RuleOperator.toStr o) = some o := by
  cases o <;> rfl

/-- A serialized rule with non-empty id and label parses back to itself. -/
theorem parseRule_ruleToJson (r : ClassificationRule) (i : Nat)
    (hid : r.id ≠ "") (hlab : r.label ≠ "") :
    parseRule (ruleToJson r) i = .ok r := by
  obtain ⟨rid, rlabel, renabled, rfield, rop, rvalue, rcat⟩ := r
  simp only at hid hlab
  have hidlen := strLenPos rid hid
  have hlablen := strLenPos rlabel hlab
  simp [parseRule, ruleToJson, Json.get?, alistGet?, List.find?, fieldRT, opRT,
    catRT, hidlen, hlablen]

/-- A serialized rule list with non-empty ids and labels parses back to
itself at every starting index. -/
theorem parseRulesList_roundTrip (rules : List ClassificationRule)
    (h : ∀ r ∈ rules, r.id ≠ "" ∧ r.label ≠ "") :
    ∀ k : Nat, parseRulesList (rules.map ruleToJson) k = .ok rules := by
  induction rules with
  | nil => intro k; rfl
  | cons r rest ih =>
    intro k
    have hr := h r (by simp)
    have hrest := ih (fun x hx => h x (by simp [hx])) (k + 1)
    simp [parseRulesList, parseRule_ruleToJson r k hr.1 hr.2, hrest, Except.bind]
    rfl

/-- A serialized override map with valid categories parses back to itself. -/
theorem parseOverrides_roundTrip (ov : List (String × WorkCategory)) :
    parseOverrides (some (.obj (ov.map (fun p => (p.1, Json.str p.2.toStr))))) = ov := by
  rw [parseOverrides_obj]
  induction ov with
  | nil => rfl
  | cons p rest ih => simp [List.filterMap, catRT, ih]

/-- The supported version survives the coercion of `parseRuleSet`. -/
theorem coercedVersion_one :
    coercedVersion (some (.num RULE_SET_VERSION)) = RULE_SET_VERSION := rfl

/-- C8: for every rule set at the supported version whose rules have
non-empty ids and labels (as `createDefaultRules` produces) and an
arbitrary override map with valid categories,
`parseRuleSet (serializeRuleSet ruleSet)` returns the same version, the
same rules in the same order, and the same overrides. -/
theorem ruleSet_roundTrip (rs : RuleSet) (hv : rs.version = RULE_SET_VERSION)
    (hrules : ∀ r ∈ rs.rules, r.id ≠ "" ∧ r.label ≠ "") :
    parseRuleSet (serializeRuleSet rs) = .ok rs := by
  obtain ⟨v, rules, ov⟩ := rs
  simp only at hv hrules
  subst hv
  have hs : serializeRuleSet ⟨RULE_SET_VERSION, rules, ov⟩ =
      .obj [("version", .num RULE_SET_VERSION),
        ("rules", .arr (rules.map ruleToJson)),
        ("overrides", .obj (ov.map (fun p => (p.1, Json.str p.2.toStr))))] := rfl
  rw [hs]
  have h1 : (Json.obj [("version", .num RULE_SET_VERSION),
      ("rules", .arr (rules.map ruleToJson)),
      ("overrides", .obj (ov.map (fun p => (p.1, Json.str p.2.toStr))))]).get?
      "version" = some (.num RULE_SET_VERSION) := rfl
  have h2 : (Json.obj [("version", .num RULE_SET_VERSION),
      ("rules", .arr (rules.map ruleToJson)),
      ("overrides", .obj (ov.map (fun p => (p.1, Json.str p.2.toStr))))]).get?
      "rules" = some (.arr (rules.map ruleToJson)) := rfl
  have h3 : (Json.obj [("version", .num RULE_SET_VERSION),
      ("rules", .arr (rules.map ruleToJson)),
      ("overrides", .obj (ov.map (fun p => (p.1, Json.str p.2.toStr))))]).get?
      "overrides" = some (.obj (ov.map (fun p => (p.1, Json.str p.2.toStr)))) := rfl
  simp only [parseRuleSet, h1, h2, h3, coercedVersion_one]
  rw [if_neg (by simp)]
  simp [parseRulesList_roundTrip rules hrules 0, parseOverrides_roundTrip]

/-- C8 witness: the default rules plus one override round-trip exactly. -/
theorem ruleSet_roundTrip_witness :
    parseRuleSet (serializeRuleSet defaultRuleSetFixture) =
      .ok defaultRuleSetFixture :=
  ruleSet_roundTrip defaultRuleSetFixture rfl (by decide)

theorem alistGet_key {α : Type} {m : List (String × α)} {k : String} {v : α}
    (h : alistGet? m k = some v) : (k, v) ∈ m := by
  unfold alistGet? at h
  cases hf : m.find? (fun p => p.1 == k) with
  | none => simp [hf] at h
  | some p =>
    simp [hf] at h
    have hm := List.mem_of_find?_eq_some hf
    have hk := List.find?_some hf
    simp at hk
    rw [← hk, ← h]
    exact hm

theorem mem_zip_tail {l : List String} {a b : String} :
    (a, b) ∈ l.zip l.tail ↔ ∃ i, l[i]? = some a ∧ l[i+1]? = some b := by
  induction l with
  | nil => simp
  | cons x xs ih =>
    cases xs with
    | nil => simp
    | cons y ys =>
      constructor
      · intro h
        simp only [List.tail_cons, List.zip_cons_cons, List.mem_cons] at h
        rcases h with h | h
        · exact ⟨0, by simp [Prod.ext_iff] at h; simp [h.1, h.2]⟩
        · have := ih.mp (by simpa using h)
          obtain ⟨i, h1, h2⟩ := this
          exact ⟨i + 1, by simpa using h1, by simpa using h2⟩
      · rintro ⟨i, h1, h2⟩
        cases i with
        | zero =>
          simp at h1 h2
          simp [h1, h2]
        | succ j =>
          simp at h1 h2
          simp only [List.tail_cons, List.zip_cons_cons, List.mem_cons]
          right
          exact ih.mpr ⟨j, by simpa using h1, by simpa using h2⟩

theorem addEdge_edges_mono {st : EdgeState} {f t : String} {r : DependencyReason}
    {e : DependencyEdge} (h : e ∈ st.edges) : e ∈ (addEdge st f t r).edges := by
  unfold addEdge
  split
  · exact h
  · split
    · exact h
    · simp [h]

theorem addEdge_dedupe_mono {st : EdgeState} {f t : String} {r : DependencyReason}
    {k : String} (h : k ∈ st.dedupe) : k ∈ (addEdge st f t r).dedupe := by
  unfold addEdge
  split
  · exact h
  · split
    · exact h
    · simp [h]

theorem addEdge_key_mem {st : EdgeState} {f t : String} {r : DependencyReason}
    (hne : f ≠ t) : (f ++ "->" ++ t) ∈ (addEdge st f t r).dedupe := by
  unfold addEdge
  rw [if_neg (by simpa using hne)]
  split
  · next hc => simpa using hc
  · simp

/-- after addEdge, dedupe is old dedupe or old dedupe plus the key -/
theorem addEdge_dedupe_sub {st : EdgeState} {f t : String} {r : DependencyReason}
    {k : String} (h : k ∈ (addEdge st f t r).dedupe) :
    k ∈ st.dedupe ∨ k = f ++ "->" ++ t := by
  unfold addEdge at h
  split at h
  · exact Or.inl h
  · split at h
    · exact Or.inl h
    · simp at h
      rcases h with h | h
      · exact Or.inl h
      · exact Or.inr (by simp [h])

theorem addEdge_edges_sub {st : EdgeState} {f t : String} {r : DependencyReason}
    {e : DependencyEdge} (h : e ∈ (addEdge st f t r).edges) :
    e ∈ st.edges ∨ e = ⟨f, t, r⟩ := by
  unfold addEdge at h
  split at h
  · exact Or.inl h
  · split at h
    · exact Or.inl h
    · simp at h
      rcases h with h | h
      · exact Or.inl h
      · exact Or.inr h

theorem foldl_preserve {β : Type} (Pr : EdgeState → Prop)
    (f : EdgeState → β → EdgeState) (l : List β)
    (h : ∀ s b, b ∈ l → Pr s → Pr (f s b)) :
    ∀ s, Pr s → Pr (l.foldl f s) := by
  induction l with
  | nil => intro s hs; exact hs
  | cons x xs ih =>
    intro s hs
    exact ih (fun s' b hb => h s' b (by simp [hb])) (f s x) (h s x (by simp) hs)

theorem childHolder_unique {m : List (String × TimelineNode)}
    (hflat : ((m.map (fun q => q.2.childIds)).flatten).Nodup)
    {a : String} {q1 q2 : TimelineNode} (h1 : q1 ∈ m.map (fun q => q.2))
    (h2 : q2 ∈ m.map (fun q => q.2))
    (ha1 : a ∈ q1.childIds) (ha2 : a ∈ q2.childIds) : q1 = q2 := by
  have hpd : (m.map (fun q => q.2.childIds)).Pairwise List.Disjoint :=
    (List.nodup_flatten.mp hflat).2
  have hmap : m.map (fun q => q.2.childIds) = (m.map (fun q => q.2)).map
      (fun n => n.childIds) := by simp
  rw [hmap] at hpd
  have hpd2 : (m.map (fun q => q.2)).Pairwise
      (fun n1 n2 => List.Disjoint n1.childIds n2.childIds) :=
    (List.pairwise_map).mp hpd
  obtain ⟨i, hi⟩ := List.get_of_mem h1
  obtain ⟨j, hj⟩ := List.get_of_mem h2
  have hget := List.pairwise_iff_get.mp hpd2
  rcases lt_trichotomy i j with h | h | h
  · have hd := hget i j h
    rw [hi, hj] at hd
    exact absurd ha2 (hd ha1)
  · rw [← hi, ← hj, h]
  · have hd := hget j i h
    rw [hi, hj] at hd
    exact absurd ha1 (hd ha2)

theorem value_id_mem {m : List (String × TimelineNode)} {v : TimelineNode}
    (h : v ∈ m.map (fun q => q.2)) : v.id ∈ m.map (fun q => q.2.id) := by
  obtain ⟨q, hq, rfl⟩ := List.mem_map.mp h
  exact List.mem_map_of_mem _ hq

theorem childId_mem_flatten {m : List (String × TimelineNode)} {q : TimelineNode}
    {c : String} (hq : q ∈ m.map (fun r => r.2)) (hc : c ∈ q.childIds) :
    c ∈ (m.map (fun r => r.2.childIds)).flatten := by
  obtain ⟨w, hw, rfl⟩ := List.mem_map.mp hq
  exact List.mem_flatten.mpr ⟨w.2.childIds, List.mem_map_of_mem _ hw, hc⟩

theorem processNode_dedupe_mono (m : List (String × TimelineNode)) (q : TimelineNode) (st : EdgeState)
    (k : String) (h : k ∈ st.dedupe) : k ∈ (processNode m st q).dedupe := by
  unfold processNode
  apply foldl_preserve (fun s => k ∈ s.dedupe)
  · intro s b _ hs
    rcases h1 : alistGet? m b.1 with _ | c' <;> rcases h2 : alistGet? m b.2 with _ | n'
    · simpa [h1, h2] using hs
    · simpa [h1, h2] using hs
    · simpa [h1, h2] using hs
    · simp only [h1, h2]
      split
      · exact addEdge_dedupe_mono hs
      · exact hs
  · apply foldl_preserve (fun s => k ∈ s.dedupe)
    · intro s b _ hs
      exact addEdge_dedupe_mono hs
    · exact h

/-- C6 (amended): for every pair of consecutive siblings in established
child order (positions `i`, `i+1` of some parent's `childIds`) where the
earlier sibling has a finish time and the later a start time, a
"sibling-order" dependency edge is added if and only if the earlier
sibling's finish is ≤ the later sibling's start, PROVIDED the string dedupe
keys `from ++ "->" ++ to` built from the node ids and child references are
collision-free (`hinj`; ids containing "->" can collide, and then a
qualifying sibling edge is silently dropped — see the counterexample); in
particular, overlapping siblings get no edge even when their `order` values
ascend.  The other hypotheses are the normalizer's invariants: map keys
equal node ids, every id occurs in at most one `childIds` list at most
once, and no node lists itself as a child. -/
theorem siblingOrderEdge_iff (m : List (String × TimelineNode)) (pk : String) (p : TimelineNode)
    (cid nid : String) (c n : TimelineNode) (f s : Int)
    (hkeys : ∀ q ∈ m, q.2.id = q.1)
    (hflat : ((m.map (fun q => q.2.childIds)).flatten).Nodup)
    (hself : ∀ q ∈ m, q.1 ∉ q.2.childIds)
    (hinj : ∀ a ∈ edgeKeyStrings m, ∀ b ∈ edgeKeyStrings m,
      ∀ a' ∈ edgeKeyStrings m, ∀ b' ∈ edgeKeyStrings m,
      a ++ "->" ++ b = a' ++ "->" ++ b' → a = a' ∧ b = b')
    (hpmem : (pk, p) ∈ m)
    (hpair : (cid, nid) ∈ p.childIds.zip p.childIds.tail)
    (hc : alistGet? m cid = some c) (hn : alistGet? m nid = some n)
    (hcf : c.finishTime = some f) (hns : n.startTime = some s) :
    (DependencyEdge.mk cid nid .siblingOrder ∈ buildDependencyEdges m) ↔ f ≤ s := by
  have hpv : p ∈ m.map (fun q => q.2) := List.mem_map_of_mem _ hpmem
  have hpid : p.id = pk := hkeys _ hpmem
  have hcid : c.id = cid := hkeys _ (alistGet_key hc)
  have hnid : n.id = nid := hkeys _ (alistGet_key hn)
  have hzip := List.of_mem_zip hpair
  have hcidmem : cid ∈ p.childIds := hzip.1
  have hnidmem : nid ∈ p.childIds := List.mem_of_mem_tail hzip.2
  have hpnodup : p.childIds.Nodup := by
    have h1 := (List.nodup_flatten.mp hflat).1
    exact h1 p.childIds (by
      simpa using List.mem_map_of_mem (fun q : TimelineNode => q.childIds) hpv)
  have hcn : cid ≠ nid := by
    intro he
    obtain ⟨i, h1, h2⟩ := mem_zip_tail.mp hpair
    rw [he] at h1
    have hlen : i < p.childIds.length := by
      by_contra hge
      rw [List.getElem?_eq_none (by omega)] at h1
      exact Option.noConfusion h1
    have := List.getElem?_inj hlen hpnodup (h1.trans h2.symm)
    omega
  have hshould : shouldAddSequentialEdge c n = decide (f ≤ s) := by
    simp [shouldAddSequentialEdge, hcf, hns]
  have holder : ∀ q ∈ m.map (fun q => q.2), nid ∈ q.childIds → q = p :=
    fun q hq hmem => childHolder_unique hflat hq hpv hmem hnidmem
  have hnotpk : cid ≠ pk := by
    intro he
    exact hself _ hpmem (by rwa [← he])
  have hcS : cid ∈ edgeKeyStrings m :=
    List.mem_append.mpr (Or.inr (childId_mem_flatten hpv hcidmem))
  have hnS : nid ∈ edgeKeyStrings m :=
    List.mem_append.mpr (Or.inr (childId_mem_flatten hpv hnidmem))
  -- the P invariant: once the key is deduped the sibling edge is present
  have stepP : ∀ q ∈ m.map (fun q => q.2), ∀ st : EdgeState,
      (cid ++ "->" ++ nid ∈ st.dedupe → DependencyEdge.mk cid nid .siblingOrder ∈ st.edges) →
      (cid ++ "->" ++ nid ∈ (processNode m st q).dedupe →
        DependencyEdge.mk cid nid .siblingOrder ∈ (processNode m st q).edges) := by
    intro q hq st hP
    unfold processNode
    apply foldl_preserve (fun st => cid ++ "->" ++ nid ∈ st.dedupe →
      DependencyEdge.mk cid nid .siblingOrder ∈ st.edges)
    · -- sibling-order steps
      intro st2 pr _ hP2 hmem
      rcases h1 : alistGet? m pr.1 with _ | c' <;> rcases h2 : alistGet? m pr.2 with _ | n'
      · simp only [h1, h2] at hmem ⊢; exact hP2 hmem
      · simp only [h1, h2] at hmem ⊢; exact hP2 hmem
      · simp only [h1, h2] at hmem ⊢; exact hP2 hmem
      · simp only [h1, h2] at hmem ⊢
        by_cases hsa : shouldAddSequentialEdge c' n' = true
        · rw [if_pos hsa] at hmem ⊢
          rcases addEdge_dedupe_sub hmem with h | h
          · exact addEdge_edges_mono (hP2 h)
          · -- the key equals the target key, and keys are collision-free
            have hcm' : c' ∈ m.map (fun q => q.2) :=
              List.mem_map_of_mem _ (alistGet_key h1)
            have hnm' : n' ∈ m.map (fun q => q.2) :=
              List.mem_map_of_mem _ (alistGet_key h2)
            have hkeq := hinj cid hcS nid hnS c'.id
              (List.mem_append.mpr (Or.inl (value_id_mem hcm'))) n'.id
              (List.mem_append.mpr (Or.inl (value_id_mem hnm'))) h
            have he1 : c'.id = cid := hkeq.1.symm
            have he2 : n'.id = nid := hkeq.2.symm
            have hpr1 : pr.1 = cid := by
              rw [← he1]; exact (hkeys _ (alistGet_key h1)).symm
            have hpr2 : pr.2 = nid := by
              rw [← he2]; exact (hkeys _ (alistGet_key h2)).symm
            rw [hpr1] at h1
            rw [hpr2] at h2
            have hcc : c' = c := by rw [h1] at hc; exact Option.some_inj.mp hc
            have hnn : n' = n := by rw [h2] at hn; exact Option.some_inj.mp hn
            -- the added edge is exactly the target edge
            rw [he1, he2]
            unfold addEdge
            rw [if_neg (by simpa using hcn)]
            split
            · next hdup => exact hP2 (by simpa using hdup)
            · simp
        · rw [if_neg hsa] at hmem ⊢
          exact hP2 hmem
    · -- parent-child steps
      apply foldl_preserve (fun st => cid ++ "->" ++ nid ∈ st.dedupe →
        DependencyEdge.mk cid nid .siblingOrder ∈ st.edges)
      · intro st2 cc hcc hP2 hmem
        rcases addEdge_dedupe_sub hmem with h | h
        · exact addEdge_edges_mono (hP2 h)
        · exfalso
          have hkeq := hinj cid hcS nid hnS q.id
            (List.mem_append.mpr (Or.inl (value_id_mem hq))) cc
            (List.mem_append.mpr (Or.inr (childId_mem_flatten hq hcc))) h
          have he1 : cid = q.id := hkeq.1
          have he2 : nid = cc := hkeq.2
          have hqp : q = p := holder q hq (by rw [he2]; exact hcc)
          rw [hqp, hpid] at he1
          exact hnotpk he1
      · exact hP
  -- the Q invariant: without f ≤ s the sibling edge is never produced
  have stepQ : ¬ f ≤ s → ∀ (q : TimelineNode) (st : EdgeState),
      DependencyEdge.mk cid nid .siblingOrder ∉ st.edges →
      DependencyEdge.mk cid nid .siblingOrder ∉ (processNode m st q).edges := by
    intro hfs q st hQ
    unfold processNode
    apply foldl_preserve (fun st =>
      DependencyEdge.mk cid nid .siblingOrder ∉ st.edges)
    · intro st2 pr _ hQ2 hmem
      rcases h1 : alistGet? m pr.1 with _ | c' <;>
        rcases h2 : alistGet? m pr.2 with _ | n'
      · simp only [h1, h2] at hmem; exact hQ2 hmem
      · simp only [h1, h2] at hmem; exact hQ2 hmem
      · simp only [h1, h2] at hmem; exact hQ2 hmem
      · simp only [h1, h2] at hmem
        by_cases hsa : shouldAddSequentialEdge c' n' = true
        · rw [if_pos hsa] at hmem
          rcases addEdge_edges_sub hmem with h | h
          · exact hQ2 h
          · -- the added sibling edge would be the target edge
            have he1 : cid = c'.id := congrArg DependencyEdge.fromId h
            have he2 : nid = n'.id := congrArg DependencyEdge.toId h
            have hpr1 : pr.1 = cid := by
              rw [he1]; exact (hkeys _ (alistGet_key h1)).symm
            have hpr2 : pr.2 = nid := by
              rw [he2]; exact (hkeys _ (alistGet_key h2)).symm
            rw [hpr1] at h1
            rw [hpr2] at h2
            have hcc : c' = c := by rw [h1] at hc; exact Option.some_inj.mp hc
            have hnn : n' = n := by rw [h2] at hn; exact Option.some_inj.mp hn
            rw [hcc, hnn, hshould] at hsa
            simp at hsa
            exact hfs hsa
        · rw [if_neg hsa] at hmem
          exact hQ2 hmem
    · apply foldl_preserve (fun st =>
        DependencyEdge.mk cid nid .siblingOrder ∉ st.edges)
      · intro st2 cc _ hQ2 hmem
        rcases addEdge_edges_sub hmem with h | h
        · exact hQ2 h
        · exact DependencyReason.noConfusion (congrArg DependencyEdge.reason h)
      · exact hQ
  constructor
  · -- an edge in the output forces the temporal check
    intro hmem
    by_contra hfs
    have hfinal : DependencyEdge.mk cid nid .siblingOrder ∉
        (buildDependencyEdges m : List DependencyEdge) := by
      unfold buildDependencyEdges
      refine foldl_preserve (fun st =>
        DependencyEdge.mk cid nid .siblingOrder ∉ st.edges) _ _ ?_ _ ?_
      · intro st q _ hQ
        exact stepQ hfs q st hQ
      · simp
    exact hfinal hmem
  · -- the temporal check forces the edge into the output
    intro hfs
    -- split the node list at the parent entry
    obtain ⟨m1, m2, hm⟩ := List.append_of_mem hpmem
    -- the key is deduped once the parent is processed
    have hkey : cid ++ "->" ++ nid ∈
        ((m.map (fun q => q.2)).foldl (processNode m) ⟨[], []⟩).dedupe := by
      have hmv : m.map (fun q => q.2) =
          m1.map (fun q => q.2) ++ p :: m2.map (fun q => q.2) := by
        rw [hm, List.map_append, List.map_cons]
      rw [hmv, List.foldl_append, List.foldl_cons]
      apply foldl_preserve (fun st => cid ++ "->" ++ nid ∈ st.dedupe)
      · intro st q _ hs
        exact processNode_dedupe_mono m q st _ hs
      · -- the key enters during the parent's own processing
        unfold processNode
        obtain ⟨z1, z2, hz⟩ := List.append_of_mem hpair
        rw [hz, List.foldl_append, List.foldl_cons]
        apply foldl_preserve (fun st => cid ++ "->" ++ nid ∈ st.dedupe)
        · intro st pr _ hs
          rcases h1 : alistGet? m pr.1 with _ | c' <;>
            rcases h2 : alistGet? m pr.2 with _ | n'
          · simpa [h1, h2] using hs
          · simpa [h1, h2] using hs
          · simpa [h1, h2] using hs
          · simp only [h1, h2]
            split
            · exact addEdge_dedupe_mono hs
            · exact hs
        · -- the pair's own step inserts the key
          simp only [hc, hn]
          rw [hshould, if_pos (by simpa using hfs), hcid, hnid]
          exact addEdge_key_mem hcn
    have hP := foldl_preserve (fun st => cid ++ "->" ++ nid ∈ st.dedupe →
        DependencyEdge.mk cid nid .siblingOrder ∈ st.edges)
      (processNode m) (m.map (fun q => q.2))
      (fun st q hq hp => stepP q hq st hp) ⟨[], []⟩ (by simp)
    exact hP hkey


/-- C6 witness: with parent P and overlapping siblings A (0-10s, order 1) and
B (5-15s, order 2), the sequential check fails and no sibling-order edge is
created despite the ascending order values. -/
theorem siblingOrderEdge_iff_witness :
    ((DependencyEdge.mk "A" "B" .siblingOrder ∈ buildDependencyEdges depMap) ↔
      (10000 : Int) ≤ 5000) ∧
    DependencyEdge.mk "A" "B" .siblingOrder ∉ buildDependencyEdges depMap := by
  have hiff := siblingOrderEdge_iff depMap "P" depParent "A" "B" depA depB
    10000 5000 (by decide) (by decide) (by decide) (by decide) (by decide)
    (by decide) (by decide) (by decide) (by decide) (by decide)
  exact ⟨hiff, fun h => absurd (hiff.mp h) (by decide)⟩

/-- C6 counterexample: the dedupe keys of `buildDependencyEdges` are the
concatenated strings `from ++ "->" ++ to`, so the sibling pairs
("A", "B->C") and ("A->B", "C") collide on the key "A->B->C".  In `colMap`
every normalizer invariant of the unamended reading holds (keys equal ids,
globally unique child references, no self-children), the pair
("A->B", "C") is a consecutive sibling pair of parent "Q", the earlier
sibling finishes (10s) exactly when the later starts (10s), yet no
sibling-order edge from "A->B" to "C" is produced: the earlier pair
("A", "B->C") of parent "P" already inserted the identical key. -/
theorem siblingOrderEdge_key_collision :
    (∀ q ∈ colMap, q.2.id = q.1) ∧
    ((colMap.map (fun q => q.2.childIds)).flatten).Nodup ∧
    (∀ q ∈ colMap, q.1 ∉ q.2.childIds) ∧
    ("Q", colQ) ∈ colMap ∧
    ("A->B", "C") ∈ colQ.childIds.zip colQ.childIds.tail ∧
    alistGet? colMap "A->B" = some colAB ∧
    alistGet? colMap "C" = some colC ∧
    colAB.finishTime = some 10000 ∧ colC.startTime = some 10000 ∧
    (10000 : Int) ≤ 10000 ∧
    DependencyEdge.mk "A" "B->C" .siblingOrder ∈ buildDependencyEdges colMap ∧
    DependencyEdge.mk "A->B" "C" .siblingOrder ∉ buildDependencyEdges colMap := by
  decide

theorem alistGet_isSome_of_mem {α : Type} {m : List (String × α)} {k : String}
    {v : α} (h : (k, v) ∈ m) : (alistGet? m k).isSome := by
  unfold alistGet?
  cases hf : m.find? (fun p => p.1 == k) with
  | none =>
    rw [List.find?_eq_none] at hf
    exact absurd (by simp : ((k, v) : String × α).1 == k) (by simpa using hf _ h)
  | some p => simp

theorem alistSet_get (m : List (String × Nat)) (k k' : String) (v : Nat) :
    alistGet? (alistSet m k v) k' = if k' = k then some v else alistGet? m k' := by
  have hbeq : ∀ (a b : String), a ≠ b → (a == b) = false :=
    fun a b hab => beq_eq_false_iff_ne.mpr hab
  induction m with
  | nil =>
    by_cases h : k' = k
    · subst h
      simp [alistSet, alistGet?, List.find?]
    · simp [alistSet, alistGet?, List.find?, hbeq k k' (Ne.symm h), h]
  | cons p rest ih =>
    obtain ⟨k2, v2⟩ := p
    simp only [alistSet]
    by_cases h2 : k2 = k
    · rw [if_pos (by simpa using h2)]
      subst h2
      by_cases h : k' = k2
      · subst h
        simp [alistGet?, List.find?]
      · simp [alistGet?, List.find?, hbeq k2 k' (Ne.symm h), h]
    · rw [if_neg (by simpa using h2)]
      by_cases h : k' = k2
      · subst h
        rw [if_neg h2]
        simp [alistGet?, List.find?]
      · have e1 : alistGet? ((k2, v2) :: alistSet rest k v) k' =
            alistGet? (alistSet rest k v) k' := by
          simp [alistGet?, List.find?, hbeq k2 k' (Ne.symm h)]
        have e2 : alistGet? ((k2, v2) :: rest) k' = alistGet? rest k' := by
          simp [alistGet?, List.find?, hbeq k2 k' (Ne.symm h)]
        rw [e1, e2]
        exact ih

theorem alistSet_get_isSome (m : List (String × Nat)) (k k' : String) (v : Nat)
    (h : (alistGet? m k').isSome) : (alistGet? (alistSet m k v) k').isSome := by
  rw [alistSet_get]
  split
  · simp
  · exact h

theorem alistSet_get_same (m : List (String × Nat)) (k : String) (v : Nat) :
    alistGet? (alistSet m k v) k = some v := by
  rw [alistSet_get]
  simp

theorem erase_append_singleton {l : List String} {x : String} (h : x ∉ l) :
    (l ++ [x]).erase x = l := by
  induction l with
  | nil => simp
  | cons y ys ih =>
    have hxy : x ≠ y := fun he => h (by simp [he])
    simp only [List.cons_append, List.erase_cons]
    rw [if_neg (by simpa using hxy.symm)]
    rw [ih (fun hm => h (by simp [hm]))]

theorem depthDfs_visited_mono (m : List (String × TimelineNode)) :
    ∀ (fuel : Nat) (nodeId : String) (depth : Nat) (st : DepthState),
      st.visited ⊆ (depthDfs m fuel nodeId depth st).visited := by
  intro fuel
  induction fuel with
  | zero => intro nodeId depth st; simp [depthDfs]
  | succ n ih =>
    intro nodeId depth st
    simp only [depthDfs]
    cases alistGet? m nodeId with
    | none => simp
    | some node =>
      by_cases h1 : nodeId ∈ st.inStack
      · simp [h1]
      · by_cases h2 : nodeId ∈ st.visited
        · simp [h1, h2]
        · simp only [h1, h2, if_false, if_true, ite_false, ite_true]
          have haux : ∀ (l : List String) (s : DepthState),
              s.visited ⊆ (l.foldl (fun s c => depthDfs m n c (depth + 1) s) s).visited := by
            intro l
            induction l with
            | nil => intro s; simp
            | cons c cs ihl =>
              intro s
              simp only [List.foldl_cons]
              exact fun x hx => ihl _ (ih c (depth + 1) s hx)
          intro x hx
          exact haux node.childIds _ (by simp [hx])

theorem depthDfs_inStack_eq (m : List (String × TimelineNode)) :
    ∀ (fuel : Nat) (nodeId : String) (depth : Nat) (st : DepthState),
      (depthDfs m fuel nodeId depth st).inStack = st.inStack := by
  intro fuel
  induction fuel with
  | zero => intro nodeId depth st; simp [depthDfs]
  | succ n ih =>
    intro nodeId depth st
    simp only [depthDfs]
    cases alistGet? m nodeId with
    | none => simp
    | some node =>
      by_cases h1 : nodeId ∈ st.inStack
      · simp [h1]
      · by_cases h2 : nodeId ∈ st.visited
        · simp [h1, h2]
        · simp only [h1, h2, if_false, if_true, ite_false, ite_true]
          have haux : ∀ (l : List String) (s : DepthState),
              (l.foldl (fun s c => depthDfs m n c (depth + 1) s) s).inStack =
                s.inStack := by
            intro l
            induction l with
            | nil => intro s; simp
            | cons c cs ihl =>
              intro s
              simp only [List.foldl_cons]
              rw [ihl, ih]
          rw [haux]
          exact erase_append_singleton h1

theorem keyCount_mono (m : List (String × TimelineNode)) {st st' : DepthState}
    (h : st.visited ⊆ st'.visited) :
    unvisitedKeyCount m st' ≤ unvisitedKeyCount m st := by
  apply Finset.card_le_card
  intro x hx
  rw [Finset.mem_sdiff] at hx ⊢
  exact ⟨hx.1, fun hm => hx.2
    (List.mem_toFinset.mpr (h (List.mem_toFinset.mp hm)))⟩

theorem alistGet_some_key_mem {α : Type} {m : List (String × α)} {k : String}
    {v : α} (h : alistGet? m k = some v) : k ∈ m.map (fun p => p.1) := by
  have := alistGet_key h
  exact List.mem_map_of_mem _ this

theorem keyCount_lt (m : List (String × TimelineNode)) {st st' : DepthState}
    {nodeId : String}
    (hkey : nodeId ∈ m.map (fun p => p.1)) (hnv : nodeId ∉ st.visited)
    (h : st'.visited = st.visited ++ [nodeId]) :
    unvisitedKeyCount m st' < unvisitedKeyCount m st := by
  apply Finset.card_lt_card
  have hsub : ((m.map (fun p => p.1)).toFinset \ st'.visited.toFinset) ⊆
      ((m.map (fun p => p.1)).toFinset \ st.visited.toFinset) := by
    intro x hx
    rw [Finset.mem_sdiff] at hx ⊢
    refine ⟨hx.1, fun hm => hx.2 ?_⟩
    rw [List.mem_toFinset] at hm ⊢
    rw [h]
    simp [hm]
  rw [Finset.ssubset_iff_of_subset hsub]
  refine ⟨nodeId, ?_, ?_⟩
  · rw [Finset.mem_sdiff, List.mem_toFinset, List.mem_toFinset]
    exact ⟨hkey, hnv⟩
  · rw [Finset.mem_sdiff, List.mem_toFinset, List.mem_toFinset]
    intro hc
    exact hc.2 (by rw [h]; simp)

theorem keyCount_le (m : List (String × TimelineNode)) (st : DepthState) :
    unvisitedKeyCount m st ≤ m.length := by
  calc unvisitedKeyCount m st
      ≤ (m.map (fun p => p.1)).toFinset.card :=
        Finset.card_le_card (Finset.sdiff_subset)
    _ ≤ (m.map (fun p => p.1)).length := (m.map (fun p => p.1)).toFinset_card_le
    _ = m.length := List.length_map _ _

theorem depthDfs_fuel_stable (m : List (String × TimelineNode)) :
    ∀ (fuel fuel' : Nat) (nodeId : String) (d : Nat) (st : DepthState),
      unvisitedKeyCount m st < fuel → unvisitedKeyCount m st < fuel' →
      depthDfs m fuel nodeId d st = depthDfs m fuel' nodeId d st := by
  intro fuel
  induction fuel with
  | zero => intro fuel' nodeId d st h _; omega
  | succ n ih =>
    intro fuel' nodeId d st hn hn'
    cases fuel' with
    | zero => omega
    | succ n' =>
      simp only [depthDfs]
      cases hget : alistGet? m nodeId with
      | none => rfl
      | some node =>
        by_cases h1 : nodeId ∈ st.inStack
        · simp [h1]
        · by_cases h2 : nodeId ∈ st.visited
          · simp [h1, h2]
          · simp only [h1, h2, if_false, if_true, ite_false, ite_true]
            have hkey := alistGet_some_key_mem hget
            have hst1 : unvisitedKeyCount m
                (⟨st.visited ++ [nodeId], st.inStack ++ [nodeId],
                  alistSet st.depths nodeId d, st.warnings⟩ : DepthState) <
                unvisitedKeyCount m st :=
              keyCount_lt m hkey h2 rfl
            have haux : ∀ (l : List String) (s : DepthState),
                unvisitedKeyCount m s < n → unvisitedKeyCount m s < n' →
                l.foldl (fun s c => depthDfs m n c (d + 1) s) s =
                  l.foldl (fun s c => depthDfs m n' c (d + 1) s) s ∧
                unvisitedKeyCount m
                  (l.foldl (fun s c => depthDfs m n c (d + 1) s) s) ≤
                  unvisitedKeyCount m s := by
              intro l
              induction l with
              | nil => intro s _ _; exact ⟨rfl, le_refl _⟩
              | cons c cs ihl =>
                intro s hsn hsn'
                have hstep := ih n' c (d + 1) s hsn hsn'
                have hmono := keyCount_mono m (depthDfs_visited_mono m n c (d + 1) s)
                obtain ⟨heq, hle⟩ := ihl (depthDfs m n c (d + 1) s)
                  (lt_of_le_of_lt hmono hsn) (lt_of_le_of_lt hmono hsn')
                constructor
                · simp only [List.foldl_cons]
                  rw [hstep] at heq
                  rw [hstep]
                  exact heq
                · simp only [List.foldl_cons]
                  exact le_trans hle hmono
            have h3 := haux node.childIds
              ⟨st.visited ++ [nodeId], st.inStack ++ [nodeId],
                alistSet st.depths nodeId d, st.warnings⟩
              (by omega) (by omega)
            rw [h3.1]

theorem assignDepths_stable (m : List (String × TimelineNode)) (roots : List String)
    (fuel fuel' : Nat) (h : m.length < fuel) (h' : m.length < fuel') :
    assignDepths m roots fuel = assignDepths m roots fuel' := by
  have hdfs : ∀ (id : String) (d : Nat) (st : DepthState),
      depthDfs m fuel id d st = depthDfs m fuel' id d st :=
    fun id d st => depthDfs_fuel_stable m fuel fuel' id d st
      (lt_of_le_of_lt (keyCount_le m st) h) (lt_of_le_of_lt (keyCount_le m st) h')
  unfold assignDepths
  have hroots : ∀ (l : List String) (s : DepthState),
      l.foldl (fun s r => depthDfs m fuel r 0 s) s =
        l.foldl (fun s r => depthDfs m fuel' r 0 s) s := by
    intro l
    induction l with
    | nil => intro s; rfl
    | cons r rs ih =>
      intro s
      simp only [List.foldl_cons]
      rw [hdfs]
      exact ih _
  rw [hroots]
  have hfb : ∀ (l : List (String × TimelineNode)) (s : DepthState),
      (l.foldl (fun s p =>
        if p.2.id ∈ s.visited then s
        else depthDfs m fuel p.2.id 0
          { s with warnings := s.warnings ++
            ["Reached disconnected node '" ++ p.2.id ++ "' from fallback traversal."] }) s) =
      (l.foldl (fun s p =>
        if p.2.id ∈ s.visited then s
        else depthDfs m fuel' p.2.id 0
          { s with warnings := s.warnings ++
            ["Reached disconnected node '" ++ p.2.id ++ "' from fallback traversal."] }) s) := by
    intro l
    induction l with
    | nil => intro s; rfl
    | cons q rest ih =>
      intro s
      simp only [List.foldl_cons]
      by_cases hv : q.2.id ∈ s.visited
      · rw [if_pos hv, if_pos hv]
        exact ih _
      · rw [if_neg hv, if_neg hv, hdfs]
        exact ih _
  exact hfb m _

theorem foldDfs_visited_mono (m : List (String × TimelineNode)) (fuel d : Nat) :
    ∀ (l : List String) (s : DepthState),
      s.visited ⊆ (l.foldl (fun s c => depthDfs m fuel c d s) s).visited := by
  intro l
  induction l with
  | nil => intro s; simp
  | cons c cs ih =>
    intro s
    simp only [List.foldl_cons]
    exact fun x hx => ih _ (depthDfs_visited_mono m fuel c d s hx)

theorem depthDfs_visits (m : List (String × TimelineNode)) (fuel : Nat) (nodeId : String)
    (d : Nat) (st : DepthState) (hsome : (alistGet? m nodeId).isSome)
    (hstack : nodeId ∉ st.inStack) :
    nodeId ∈ (depthDfs m (fuel + 1) nodeId d st).visited := by
  simp only [depthDfs]
  cases hget : alistGet? m nodeId with
  | none => rw [hget] at hsome; exact absurd hsome (by simp)
  | some node =>
    by_cases h2 : nodeId ∈ st.visited
    · simp [hstack, h2]
    · simp only [hstack, h2, if_false, if_true, ite_false, ite_true]
      have h3 := foldDfs_visited_mono m fuel (d + 1) node.childIds
        ⟨st.visited ++ [nodeId], st.inStack ++ [nodeId],
          alistSet st.depths nodeId d, st.warnings⟩
      exact h3 (by simp)

theorem depthDfs_depths_inv (m : List (String × TimelineNode)) :
    ∀ (fuel : Nat) (nodeId : String) (d : Nat) (st : DepthState),
      (∀ x ∈ st.visited, (alistGet? st.depths x).isSome) →
      ∀ x ∈ (depthDfs m fuel nodeId d st).visited,
        (alistGet? (depthDfs m fuel nodeId d st).depths x).isSome := by
  intro fuel
  induction fuel with
  | zero => intro nodeId d st h; simpa [depthDfs] using h
  | succ n ih =>
    intro nodeId d st h
    simp only [depthDfs]
    cases hget : alistGet? m nodeId with
    | none => exact h
    | some node =>
      by_cases h1 : nodeId ∈ st.inStack
      · simpa [h1] using h
      · by_cases h2 : nodeId ∈ st.visited
        · simp only [h1, h2, if_true, if_false, ite_true, ite_false]
          intro x hx
          exact alistSet_get_isSome _ _ _ _ (h x hx)
        · simp only [h1, h2, if_false, if_true, ite_false, ite_true]
          have haux : ∀ (l : List String) (s : DepthState),
              (∀ x ∈ s.visited, (alistGet? s.depths x).isSome) →
              ∀ x ∈ (l.foldl (fun s c => depthDfs m n c (d + 1) s) s).visited,
                (alistGet? (l.foldl (fun s c => depthDfs m n c (d + 1) s) s).depths
                  x).isSome := by
            intro l
            induction l with
            | nil => intro s hs; exact hs
            | cons c cs ihl =>
              intro s hs
              simp only [List.foldl_cons]
              exact ihl _ (ih c (d + 1) s hs)
          intro x hx
          refine haux node.childIds
            ⟨st.visited ++ [nodeId], st.inStack ++ [nodeId],
              alistSet st.depths nodeId d, st.warnings⟩ ?_ x hx
          intro y hy
          simp only [List.mem_append, List.mem_singleton] at hy
          rcases hy with hy | hy
          · exact alistSet_get_isSome _ _ _ _ (h y hy)
          · subst hy
            simp [alistSet_get_same]

theorem foldDfs_inStack_eq (m : List (String × TimelineNode)) (fuel d : Nat) :
    ∀ (l : List String) (s : DepthState),
      (l.foldl (fun s c => depthDfs m fuel c d s) s).inStack = s.inStack := by
  intro l
  induction l with
  | nil => intro s; rfl
  | cons c cs ih =>
    intro s
    simp only [List.foldl_cons]
    rw [ih, depthDfs_inStack_eq]

theorem foldDfs_depths_inv (m : List (String × TimelineNode)) (fuel d : Nat) :
    ∀ (l : List String) (s : DepthState),
      (∀ x ∈ s.visited, (alistGet? s.depths x).isSome) →
      ∀ x ∈ (l.foldl (fun s c => depthDfs m fuel c d s) s).visited,
        (alistGet? (l.foldl (fun s c => depthDfs m fuel c d s) s).depths x).isSome := by
  intro l
  induction l with
  | nil => intro s hs; exact hs
  | cons c cs ih =>
    intro s hs
    simp only [List.foldl_cons]
    exact ih _ (depthDfs_depths_inv m fuel c d s hs)

theorem assignDepths_all (m : List (String × TimelineNode)) (roots : List String)
    (fuel : Nat) (hfuel : 1 ≤ fuel) (hkeys : ∀ q ∈ m, q.2.id = q.1) :
    (∀ q ∈ m, q.2.id ∈ (assignDepths m roots fuel).visited) ∧
    (∀ x ∈ (assignDepths m roots fuel).visited,
      (alistGet? (assignDepths m roots fuel).depths x).isSome) := by
  obtain ⟨n, rfl⟩ : ∃ n, fuel = n + 1 := ⟨fuel - 1, by omega⟩
  unfold assignDepths
  set st1 := roots.foldl (fun s r => depthDfs m (n + 1) r 0 s)
    (⟨[], [], [], []⟩ : DepthState) with hst1
  have hst1stack : st1.inStack = [] := by
    rw [hst1, foldDfs_inStack_eq]
  have hst1dep : ∀ x ∈ st1.visited, (alistGet? st1.depths x).isSome := by
    rw [hst1]
    exact foldDfs_depths_inv m (n + 1) 0 roots ⟨[], [], [], []⟩ (by simp)
  have aux : ∀ (l : List (String × TimelineNode)), (∀ q ∈ l, q ∈ m) →
      ∀ (s : DepthState), s.inStack = [] →
      (∀ x ∈ s.visited, (alistGet? s.depths x).isSome) →
      (∀ q ∈ l, q.2.id ∈ (l.foldl (fun s p =>
        if p.2.id ∈ s.visited then s
        else depthDfs m (n + 1) p.2.id 0
          { s with warnings := s.warnings ++
            ["Reached disconnected node '" ++ p.2.id ++ "' from fallback traversal."] })
        s).visited) ∧
      (s.visited ⊆ (l.foldl (fun s p =>
        if p.2.id ∈ s.visited then s
        else depthDfs m (n + 1) p.2.id 0
          { s with warnings := s.warnings ++
            ["Reached disconnected node '" ++ p.2.id ++ "' from fallback traversal."] })
        s).visited) ∧
      (∀ x ∈ (l.foldl (fun s p =>
        if p.2.id ∈ s.visited then s
        else depthDfs m (n + 1) p.2.id 0
          { s with warnings := s.warnings ++
            ["Reached disconnected node '" ++ p.2.id ++ "' from fallback traversal."] })
        s).visited, (alistGet? (l.foldl (fun s p =>
        if p.2.id ∈ s.visited then s
        else depthDfs m (n + 1) p.2.id 0
          { s with warnings := s.warnings ++
            ["Reached disconnected node '" ++ p.2.id ++ "' from fallback traversal."] })
        s).depths x).isSome) ∧
      (l.foldl (fun s p =>
        if p.2.id ∈ s.visited then s
        else depthDfs m (n + 1) p.2.id 0
          { s with warnings := s.warnings ++
            ["Reached disconnected node '" ++ p.2.id ++ "' from fallback traversal."] })
        s).inStack = [] := by
    intro l
    induction l with
    | nil =>
      intro _ s hstack hdep
      exact ⟨by simp, by simp, hdep, hstack⟩
    | cons q rest ih =>
      intro hsub s hstack hdep
      simp only [List.foldl_cons]
      by_cases hv : q.2.id ∈ s.visited
      · rw [if_pos hv]
        obtain ⟨ha, hb, hc, hd⟩ := ih (fun x hx => hsub x (by simp [hx])) s hstack hdep
        refine ⟨?_, hb, hc, hd⟩
        intro q' hq'
        rcases List.mem_cons.mp hq' with rfl | hq'
        · exact hb hv
        · exact ha q' hq'
      · rw [if_neg hv]
        have hqm := hsub q (by simp)
        have hsome : (alistGet? m q.2.id).isSome := by
          rw [hkeys q hqm]
          exact alistGet_isSome_of_mem (by
            rw [show (q.1, q.2) = q from rfl]
            exact hqm)
        set s' := depthDfs m (n + 1) q.2.id 0
          { s with warnings := s.warnings ++
            ["Reached disconnected node '" ++ q.2.id ++ "' from fallback traversal."] }
          with hs'
        have hvisited : q.2.id ∈ s'.visited := by
          rw [hs']
          exact depthDfs_visits m n q.2.id 0 _ hsome (by simp [hstack])
        have hsmono : s.visited ⊆ s'.visited := by
          rw [hs']
          exact depthDfs_visited_mono m (n + 1) q.2.id 0
            { s with warnings := s.warnings ++
              ["Reached disconnected node '" ++ q.2.id ++ "' from fallback traversal."] }
        have hsdep : ∀ x ∈ s'.visited, (alistGet? s'.depths x).isSome := by
          rw [hs']
          exact depthDfs_depths_inv m (n + 1) q.2.id 0 _ hdep
        have hsstack : s'.inStack = [] := by
          rw [hs', depthDfs_inStack_eq]
          exact hstack
        obtain ⟨ha, hb, hc, hd⟩ := ih (fun x hx => hsub x (by simp [hx])) s' hsstack hsdep
        refine ⟨?_, fun x hx => hb (hsmono hx), hc, hd⟩
        intro q' hq'
        rcases List.mem_cons.mp hq' with rfl | hq'
        · exact hb hvisited
        · exact ha q' hq'
  obtain ⟨ha, _, hc, _⟩ := aux m (fun q hq => hq) st1 hst1stack hst1dep
  exact ⟨ha, hc⟩

/-- C4: for every node set and root list — including inputs with parent
cycles (such as the A/B two-cycle fixture) and disconnected nodes — depth
assignment terminates (the result stabilizes once the fuel exceeds the node
count, the shallow form of the termination argument), assigns every node a
finite non-negative depth (a `Nat` in the depth map), and on the cycle
fixture records a cycle warning instead of recursing forever.  `hkeys` is
the normalizer invariant that map keys equal node ids. -/
theorem assignDepths_total (m : List (String × TimelineNode)) (roots : List String)
    (hkeys : ∀ q ∈ m, q.2.id = q.1) :
    (∀ fuel fuel', m.length < fuel → m.length < fuel' →
      assignDepths m roots fuel = assignDepths m roots fuel') ∧
    (∀ fuel, 1 ≤ fuel → ∀ q ∈ m,
      q.2.id ∈ (assignDepths m roots fuel).visited ∧
      ∃ d : Nat, alistGet? (assignDepths m roots fuel).depths q.2.id = some d) ∧
    ("Detected cycle at 'A'." ∈ (assignDepths cycMap [] 3).warnings ∧
      alistGet? (assignDepths cycMap [] 3).depths "A" = some 0 ∧
      alistGet? (assignDepths cycMap [] 3).depths "B" = some 1) := by
  refine ⟨fun fuel fuel' h h' => assignDepths_stable m roots fuel fuel' h h',
    ?_, by decide⟩
  intro fuel hf q hq
  obtain ⟨ha, hc⟩ := assignDepths_all m roots fuel hf hkeys
  refine ⟨ha q hq, ?_⟩
  have := hc q.2.id (ha q hq)
  rwa [Option.isSome_iff_exists] at this

/-- C4 witness: on the A/B parent cycle with no roots, the result at fuel 3
matches the result at fuel 4, and node A is visited. -/
theorem assignDepths_total_witness :
    assignDepths cycMap [] 3 = assignDepths cycMap [] 4 ∧
    "A" ∈ (assignDepths cycMap [] 3).visited := by
  have h := assignDepths_total cycMap [] (by decide)
  refine ⟨h.1 3 4 (by decide) (by decide), ?_⟩
  have h2 := (h.2.1 3 (by decide)) ("A", cycA) (by decide)
  simpa using h2.1

theorem insertSorted_perm {α : Type} (cmp : α → α → Int) (x : α) (l : List α) :
    List.Perm (insertSorted cmp x l) (x :: l) := by
  induction l with
  | nil => rfl
  | cons y rest ih =>
    simp only [insertSorted]
    split
    · rfl
    · exact (ih.cons y).trans (List.Perm.swap x y rest)

theorem stableSort_perm {α : Type} (cmp : α → α → Int) (l : List α) :
    List.Perm (stableSort cmp l) l := by
  have aux : ∀ (l acc : List α),
      List.Perm (l.foldl (fun acc x => insertSorted cmp x acc) acc) (acc ++ l) := by
    intro l
    induction l with
    | nil => intro acc; simp
    | cons x rest ih =>
      intro acc
      simp only [List.foldl_cons]
      exact (ih _).trans
        (((insertSorted_perm cmp x acc).append_right rest).trans
          List.perm_middle.symm)
  simpa using aux l []

theorem insertSorted_pairwise {α : Type} {cmp : α → α → Int}
    (hswap : ∀ x y, cmp y x = -cmp x y)
    (htrans : ∀ x y z, cmp x y ≤ 0 → cmp y z ≤ 0 → cmp x z ≤ 0)
    (x : α) {l : List α} (hl : l.Pairwise (fun a b => cmp a b ≤ 0)) :
    (insertSorted cmp x l).Pairwise (fun a b => cmp a b ≤ 0) := by
  induction l with
  | nil => simp [insertSorted]
  | cons y rest ih =>
    rcases List.pairwise_cons.mp hl with ⟨hy, hrest⟩
    simp only [insertSorted]
    split
    · next hlt =>
      refine List.pairwise_cons.mpr ⟨?_, hl⟩
      intro z hz
      rcases List.mem_cons.mp hz with rfl | hz
      · omega
      · exact htrans x y z (by omega) (hy z hz)
    · next hge =>
      refine List.pairwise_cons.mpr ⟨?_, ih hrest⟩
      intro z hz
      have hz2 := (insertSorted_perm cmp x rest).mem_iff.mp hz
      rcases List.mem_cons.mp hz2 with rfl | hz2
      · have := hswap y z
        omega
      · exact hy z hz2

theorem stableSort_pairwise {α : Type} {cmp : α → α → Int}
    (hswap : ∀ x y, cmp y x = -cmp x y)
    (htrans : ∀ x y z, cmp x y ≤ 0 → cmp y z ≤ 0 → cmp x z ≤ 0)
    (l : List α) : (stableSort cmp l).Pairwise (fun a b => cmp a b ≤ 0) := by
  have aux : ∀ (l acc : List α), acc.Pairwise (fun a b => cmp a b ≤ 0) →
      (l.foldl (fun acc x => insertSorted cmp x acc) acc).Pairwise
        (fun a b => cmp a b ≤ 0) := by
    intro l
    induction l with
    | nil => intro acc h; simpa using h
    | cons x rest ih =>
      intro acc h
      simp only [List.foldl_cons]
      exact ih _ (insertSorted_pairwise hswap htrans x h)
  exact aux l [] (by simp)

theorem activityCmp_swap (x y : TimedActivity) : activityCmp y x = -activityCmp x y := by
  simp only [activityCmp]
  split_ifs <;> omega

theorem activityCmp_trans (x y z : TimedActivity) (h1 : activityCmp x y ≤ 0)
    (h2 : activityCmp y z ≤ 0) : activityCmp x z ≤ 0 := by
  simp only [activityCmp] at h1 h2 ⊢
  split_ifs at h1 h2 ⊢ <;> omega

theorem sorted_finish (acts : List TimedActivity) :
    (stableSort activityCmp acts).Pairwise (fun a b => a.finishMs ≤ b.finishMs) := by
  have h := stableSort_pairwise activityCmp_swap activityCmp_trans acts
  refine h.imp ?_
  intro a b hab
  simp only [activityCmp] at hab
  split_ifs at hab <;> omega

theorem prevSearch_inv (ft : List Int) (s : Int) (index : Nat)
    (hmono : ∀ i j : Nat, i ≤ j → j < ft.length → ft.getD i 0 ≤ ft.getD j 0)
    (hidx : index ≤ ft.length) :
    ∀ (fuel : Nat) (low high answer : Int),
    (high + 1 - low).toNat ≤ fuel →
    0 ≤ low → high ≤ (index : Int) - 1 → answer < low →
    answer ≤ (index : Int) - 1 →
    (answer = -1 ∨ (0 ≤ answer ∧ ft.getD answer.toNat 0 ≤ s)) →
    (∀ j : Nat, j < index → ft.getD j 0 ≤ s → (j : Int) < low → (j : Int) ≤ answer) →
    (∀ j : Nat, j < index → ft.getD j 0 ≤ s → (j : Int) ≤ high ∨ (j : Int) < low) →
    (prevSearch ft s fuel low high answer = -1 ∨
      (0 ≤ prevSearch ft s fuel low high answer ∧
        ft.getD (prevSearch ft s fuel low high answer).toNat 0 ≤ s)) ∧
    prevSearch ft s fuel low high answer ≤ (index : Int) - 1 ∧
    (∀ j : Nat, j < index → ft.getD j 0 ≤ s →
      (j : Int) ≤ prevSearch ft s fuel low high answer) := by
  intro fuel
  induction fuel with
  | zero =>
    intro low high answer hfuel h0 hhi hal hai hans hinva hinvb
    have hlh : high < low := by omega
    simp only [prevSearch]
    refine ⟨hans, hai, ?_⟩
    intro j hj hfj
    rcases hinvb j hj hfj with h | h
    · exact hinva j hj hfj (by omega)
    · exact hinva j hj hfj h
  | succ n ih =>
    intro low high answer hfuel h0 hhi hal hai hans hinva hinvb
    simp only [prevSearch]
    by_cases hlh : low ≤ high
    · rw [if_pos hlh]
      set middle := (low + high) / 2 with hmid
      have hmb : low ≤ middle ∧ middle ≤ high := by omega
      by_cases hle : ft.getD middle.toNat 0 ≤ s
      · rw [if_pos hle]
        refine ih (middle + 1) high middle (by omega) (by omega) hhi (by omega)
          (by omega) (Or.inr ⟨by omega, hle⟩) ?_ ?_
        · intro j hj hfj hjm
          omega
        · intro j hj hfj
          rcases hinvb j hj hfj with h | h
          · exact Or.inl h
          · exact Or.inr (by omega)
      · rw [if_neg hle]
        refine ih low (middle - 1) answer (by omega) h0 (by omega) hal hai hans
          hinva ?_
        intro j hj hfj
        rcases hinvb j hj hfj with h | h
        · by_cases hjm : (j : Int) < middle
          · exact Or.inl (by omega)
          · exfalso
            have hmj : middle.toNat ≤ j := by omega
            have := hmono middle.toNat j hmj (by omega)
            omega
        · exact Or.inr h
    · rw [if_neg hlh]
      refine ⟨hans, hai, ?_⟩
      intro j hj hfj
      rcases hinvb j hj hfj with h | h
      · exact hinva j hj hfj (by omega)
      · exact hinva j hj hfj h

theorem prevIndex_spec (ordered : List TimedActivity) (i : Nat)
    (hsorted : ordered.Pairwise (fun a b => a.finishMs ≤ b.finishMs))
    (hi : i ≤ ordered.length) :
    (prevIndex ordered i = -1 ∨
      (0 ≤ prevIndex ordered i ∧
        (ordered.map (fun a => a.finishMs)).getD (prevIndex ordered i).toNat 0 ≤
          (ordered.getD i dummyActivity).startMs)) ∧
    prevIndex ordered i ≤ (i : Int) - 1 ∧
    (∀ j : Nat, j < i →
      (ordered.map (fun a => a.finishMs)).getD j 0 ≤
        (ordered.getD i dummyActivity).startMs →
      (j : Int) ≤ prevIndex ordered i) := by
  have hmono : ∀ a b : Nat, a ≤ b → b < (ordered.map (fun x => x.finishMs)).length →
      (ordered.map (fun x => x.finishMs)).getD a 0 ≤
        (ordered.map (fun x => x.finishMs)).getD b 0 := by
    intro a b hab hb
    simp only [List.length_map] at hb
    rw [List.getD_eq_getElem _ _ (by simpa using lt_of_le_of_lt hab hb),
      List.getD_eq_getElem _ _ (by simpa using hb)]
    simp only [List.getElem_map]
    rcases eq_or_lt_of_le hab with rfl | hlt
    · exact le_refl _
    · exact List.pairwise_iff_getElem.mp hsorted a b _ _ hlt
  exact prevSearch_inv (ordered.map (fun a => a.finishMs))
    ((ordered.getD i dummyActivity).startMs) i hmono (by simpa using hi) i 0
    ((i : Int) - 1) (-1) (by omega) (by omega) (by omega) (by omega) (by omega)
    (Or.inl rfl) (by intro j hj hfj hneg; omega) (by intro j hj hfj; omega)

theorem bestList_length (ordered : List TimedActivity) (i : Nat) :
    (bestList ordered i).length = i + 1 := by
  induction i with
  | zero => rfl
  | succ n ih => simp [bestList, ih]

theorem bestList_getD_stable (ordered : List TimedActivity) :
    ∀ (i j : Nat), j ≤ i → (bestList ordered i).getD j 0 = bestVal ordered j := by
  intro i
  induction i with
  | zero =>
    intro j hj
    interval_cases j
    rfl
  | succ n ih =>
    intro j hj
    rcases Nat.lt_or_ge j (n + 1) with h | h
    · rw [show bestList ordered (n + 1) = bestList ordered n ++
        [if includeValue ordered n ≥ excludeValue ordered n then includeValue ordered n
          else excludeValue ordered n] from rfl]
      rw [List.getD_append _ _ _ _ (by rw [bestList_length]; omega)]
      exact ih j (by omega)
    · have hj1 : j = n + 1 := by omega
      subst hj1
      rfl

theorem bestVal_succ (ordered : List TimedActivity) (i : Nat) :
    bestVal ordered (i + 1) =
      if includeValue ordered i ≥ excludeValue ordered i then includeValue ordered i
      else excludeValue ordered i := by
  show (bestList ordered i ++ [_]).getD (i + 1) 0 = _
  rw [List.getD_eq_getElem _ _ (by simp [bestList_length])]
  rw [List.getElem_append_right (by simp [bestList_length])]
  simp only [bestList_length, Nat.sub_self]
  rfl

theorem excludeValue_eq (ordered : List TimedActivity) (i : Nat) :
    excludeValue ordered i = bestVal ordered i := rfl

theorem bestVal_mono (ordered : List TimedActivity) (i : Nat) :
    bestVal ordered i ≤ bestVal ordered (i + 1) := by
  rw [bestVal_succ]
  split
  · next h => rw [← excludeValue_eq]; omega
  · rw [← excludeValue_eq]

theorem includeValue_eq (ordered : List TimedActivity) (i : Nat)
    (hq : (prevIndex ordered i + 1).toNat ≤ i) :
    includeValue ordered i = (ordered.getD i dummyActivity).durationMs +
      bestVal ordered (prevIndex ordered i + 1).toNat := by
  unfold includeValue
  rw [bestList_getD_stable ordered i _ hq]

theorem chooseList_getD (ordered : List TimedActivity) :
    ∀ (n i : Nat), i < n →
      (chooseList ordered n).getD (i + 1) false =
        decide (includeValue ordered i ≥ excludeValue ordered i) := by
  have hlen : ∀ k, (chooseList ordered k).length = k + 1 := by
    intro k
    induction k with
    | zero => rfl
    | succ m ih => simp [chooseList, ih]
  intro n
  induction n with
  | zero => intro i hi; omega
  | succ m ih =>
    intro i hi
    rcases Nat.lt_or_ge i m with h | h
    · rw [show chooseList ordered (m + 1) = chooseList ordered m ++
        [decide (includeValue ordered m ≥ excludeValue ordered m)] from rfl]
      rw [List.getD_append _ _ _ _ (by rw [hlen]; omega)]
      exact ih i h
    · have : i = m := by omega
      subst this
      rw [show chooseList ordered (i + 1) = chooseList ordered i ++
        [decide (includeValue ordered i ≥ excludeValue ordered i)] from rfl]
      rw [List.getD_eq_getElem _ _ (by rw [List.length_append, hlen]; simp)]
      rw [List.getElem_append_right (by simp [hlen])]
      simp [hlen]

theorem drop_take_finish_gt (ordered : List TimedActivity)
    (hsorted : ordered.Pairwise (fun a b => a.finishMs ≤ b.finishMs))
    (i : Nat) (hi : i ≤ ordered.length) (q : Nat)
    (hq : q = (prevIndex ordered i + 1).toNat)
    (y : TimedActivity) (hy : y ∈ (ordered.take i).drop q) :
    ¬ y.finishMs ≤ (ordered.getD i dummyActivity).startMs := by
  obtain ⟨k, hk, hyk⟩ := List.mem_iff_getElem.mp hy
  have hlen : ((ordered.take i).drop q).length = i - q := by
    simp [List.length_drop, List.length_take]
    omega
  have hki : q + k < i := by omega
  intro hle
  have hspec := (prevIndex_spec ordered i hsorted hi).2.2 (q + k) hki (by
    have hmap : (ordered.map (fun a => a.finishMs)).getD (q + k) 0 = y.finishMs := by
      rw [List.getD_eq_getElem _ _ (by simp; omega), List.getElem_map, ← hyk,
        List.getElem_drop, List.getElem_take]
    rw [hmap]
    exact hle)
  have hp : prevIndex ordered i ≥ -1 := by
    rcases (prevIndex_spec ordered i hsorted hi).1 with h | h
    · omega
    · omega
  omega

theorem sublist_drop_filter {c A B : List TimedActivity} {P : TimedActivity → Prop}
    (hsub : List.Sublist c (A ++ B)) (hc : ∀ x ∈ c, P x) (hB : ∀ y ∈ B, ¬ P y) :
    List.Sublist c A := by
  rcases List.sublist_append_iff.mp hsub with ⟨d1, d2, rfl, hd1, hd2⟩
  cases d2 with
  | nil => simpa using hd1
  | cons y rest =>
    exfalso
    exact hB y (hd2.subset (by simp)) (hc y (by simp))

theorem take_elem_finish_le (ordered : List TimedActivity)
    (hsorted : ordered.Pairwise (fun a b => a.finishMs ≤ b.finishMs))
    (q : Nat) (hq : q ≤ ordered.length) (hq0 : 0 < q)
    (x : TimedActivity) (hx : x ∈ ordered.take q) :
    x.finishMs ≤ (ordered.getD (q - 1) dummyActivity).finishMs := by
  rw [List.getD_eq_getElem _ _ (by omega)]
  obtain ⟨k, hk, hxk⟩ := List.mem_iff_getElem.mp hx
  have hkl : k < q := by
    have := hk
    simp [List.length_take] at this
    omega
  rw [← hxk, List.getElem_take]
  rcases Nat.lt_or_ge k (q - 1) with h | h
  · exact List.pairwise_iff_getElem.mp hsorted k (q - 1) _ _ (by omega)
  · have hk1 : k = q - 1 := by omega
    subst hk1
    exact le_refl _

theorem bestVal_upper (ordered : List TimedActivity)
    (hsorted : ordered.Pairwise (fun a b => a.finishMs ≤ b.finishMs)) :
    ∀ i : Nat, i ≤ ordered.length →
      ∀ c : List TimedActivity, List.Sublist c (ordered.take i) →
      List.Chain' (fun a b => a.finishMs ≤ b.startMs) c →
      (c.map (fun a => a.durationMs)).sum ≤ bestVal ordered i := by
  intro i
  induction i using Nat.strong_induction_on with
  | _ i IH =>
    cases i with
    | zero =>
      intro _ c hsub _
      simp only [List.take_zero] at hsub
      rw [List.sublist_nil.mp hsub]
      simp [bestVal, bestList]
    | succ i' =>
      intro hle c hsub hchain
      have hi' : i' < ordered.length := by omega
      have htake : ordered.take (i' + 1) = ordered.take i' ++
          [ordered.getD i' dummyActivity] := by
        rw [List.take_succ]
        congr 1
        rw [List.getElem?_eq_getElem hi']
        rw [List.getD_eq_getElem _ _ hi']
        rfl
      rw [htake] at hsub
      rcases List.sublist_append_iff.mp hsub with ⟨c1, c2, rfl, hc1, hc2⟩
      have hc2' : c2 = [] ∨ c2 = [ordered.getD i' dummyActivity] := by
        cases hc2 with
        | cons _ h => exact Or.inl (List.sublist_nil.mp h)
        | cons₂ _ h =>
          right
          rw [List.sublist_nil.mp h]
      rcases hc2' with rfl | rfl
      · simp only [List.append_nil] at hchain ⊢
        exact le_trans (IH i' (by omega) (by omega) c1 hc1 hchain)
          (bestVal_mono ordered i')
      · -- the chain uses activity i'
        set ai := ordered.getD i' dummyActivity with hai
        set p := prevIndex ordered i' with hp
        set q := (p + 1).toNat with hq
        have hspec := prevIndex_spec ordered i' hsorted (by omega)
        have hqi : q ≤ i' := by
          have := hspec.2.1
          omega
        -- decompose the chain
        rw [List.chain'_append] at hchain
        obtain ⟨hchain1, _, hlink⟩ := hchain
        -- every element of c1 finishes before ai starts
        have hc1P : ∀ x ∈ c1, x.finishMs ≤ ai.startMs := by
          rcases List.eq_nil_or_concat c1 with rfl | ⟨c1', b, hcb⟩
          · simp
          · rw [List.concat_eq_append] at hcb
            subst hcb
            have hblink : b.finishMs ≤ ai.startMs := by
              have := hlink b (by simp) ai (by simp)
              exact this
            have hpw : (c1' ++ [b]).Pairwise (fun a b => a.finishMs ≤ b.finishMs) :=
              ((hsorted.sublist (List.take_sublist i' ordered)).sublist hc1)
            intro x hx
            rcases List.mem_append.mp hx with hx | hx
            · have hxb : x.finishMs ≤ b.finishMs := by
                have := (List.pairwise_append.mp hpw).2.2
                exact this x hx b (by simp)
              omega
            · rcases List.mem_singleton.mp hx with rfl
              exact hblink
        -- hence c1 avoids the activities between p+1 and i'
        have hsplit : ordered.take i' = ordered.take q ++ (ordered.take i').drop q := by
          have h1 : (ordered.take i').take q = ordered.take q := by
            rw [List.take_take]
            congr 1
            omega
          rw [← h1, List.take_append_drop]
        rw [hsplit] at hc1
        have hc1A : List.Sublist c1 (ordered.take q) := by
          refine sublist_drop_filter hc1 hc1P ?_
          intro y hy
          exact drop_take_finish_gt ordered hsorted i' (by omega) q hq y hy
        -- bound via the include value
        have hc1sum : (c1.map (fun a => a.durationMs)).sum ≤ bestVal ordered q :=
          IH q (by omega) (by omega) c1 hc1A hchain1
        have hinc : includeValue ordered i' = ai.durationMs + bestVal ordered q := by
          rw [includeValue_eq ordered i' (by omega)]
        have hsum : ((c1 ++ [ai]).map (fun a => a.durationMs)).sum =
            (c1.map (fun a => a.durationMs)).sum + ai.durationMs := by
          simp
        rw [hsum]
        rw [bestVal_succ]
        split
        · next h =>
          rw [hinc]
          omega
        · next h =>
          rw [hinc] at h
          rw [excludeValue_eq] at h ⊢
          have := bestVal_mono ordered q
          omega

theorem walkAux_eq_map (ordered : List TimedActivity) (n : Nat) :
    ∀ (fuel i : Nat), walkAux ordered n fuel i =
      (walkPath ordered n fuel i).map (fun a => a.id) := by
  intro fuel
  induction fuel with
  | zero => intro i; rfl
  | succ m ih =>
    intro i
    cases i with
    | zero => rfl
    | succ i' =>
      simp only [walkAux, walkPath]
      split
      · simp [ih]
      · exact ih i'

theorem take_sublist_take (ordered : List TimedActivity) {q i : Nat} (h : q ≤ i) :
    List.Sublist (ordered.take q) (ordered.take i) := by
  have h1 : (ordered.take i).take q = ordered.take q := by
    rw [List.take_take]
    congr 1
    omega
  rw [← h1]
  exact List.take_sublist q (ordered.take i)

theorem walkPath_spec (ordered : List TimedActivity)
    (hsorted : ordered.Pairwise (fun a b => a.finishMs ≤ b.finishMs)) :
    ∀ (fuel i : Nat), i ≤ fuel → i ≤ ordered.length →
      List.Sublist (walkPath ordered ordered.length fuel i).reverse (ordered.take i) ∧
      List.Chain' (fun a b => a.finishMs ≤ b.startMs)
        (walkPath ordered ordered.length fuel i).reverse ∧
      (((walkPath ordered ordered.length fuel i).reverse.map
        (fun a => a.durationMs)).sum) = bestVal ordered i := by
  intro fuel
  induction fuel with
  | zero =>
    intro i hif hin
    have hi0 : i = 0 := by omega
    subst hi0
    exact ⟨by simp [walkPath], by simp [walkPath], by simp [walkPath, bestVal, bestList]⟩
  | succ m ih =>
    intro i hif hin
    cases i with
    | zero =>
      exact ⟨by simp [walkPath], by simp [walkPath], by simp [walkPath, bestVal, bestList]⟩
    | succ i' =>
      have hi' : i' < ordered.length := by omega
      set ai := ordered.getD i' dummyActivity with hai
      set p := prevIndex ordered i' with hp
      set q := (p + 1).toNat with hq
      have hspec := prevIndex_spec ordered i' hsorted (by omega)
      have hqi : q ≤ i' := by
        have := hspec.2.1
        omega
      have htake : ordered.take (i' + 1) = ordered.take i' ++ [ai] := by
        rw [List.take_succ]
        congr 1
        rw [List.getElem?_eq_getElem hi']
        rw [hai, List.getD_eq_getElem _ _ hi']
        rfl
      have hchoose : (chooseList ordered ordered.length).getD (i' + 1) false =
          decide (includeValue ordered i' ≥ excludeValue ordered i') :=
        chooseList_getD ordered ordered.length i' (by omega)
      simp only [walkPath, hchoose]
      by_cases hcond : includeValue ordered i' ≥ excludeValue ordered i'
      · rw [if_pos (by simpa using hcond)]
        obtain ⟨ihsub, ihchain, ihsum⟩ := ih q (by omega) (by omega)
        have hrev : (ai :: walkPath ordered ordered.length m q).reverse =
            (walkPath ordered ordered.length m q).reverse ++ [ai] := by
          simp
        rw [hrev]
        refine ⟨?_, ?_, ?_⟩
        · rw [htake]
          exact List.Sublist.append
            (ihsub.trans (take_sublist_take ordered hqi)) (List.Sublist.refl _)
        · rw [List.chain'_append]
          refine ⟨ihchain, by simp, ?_⟩
          intro x hx y hy
          simp only [List.head?_cons, Option.mem_def, Option.some.injEq] at hy
          subst hy
          -- x is the last element of the walk; it lies in take q
          have hxm : x ∈ (walkPath ordered ordered.length m q).reverse := by
            exact List.mem_of_mem_getLast? hx
          have hxq : x ∈ ordered.take q := ihsub.subset hxm
          have hq0 : 0 < q := by
            rcases List.eq_nil_or_concat ((walkPath ordered ordered.length m q).reverse)
              with he | ⟨l', b, hcb⟩
            · rw [he] at hx
              simp at hx
            · by_contra hq0
              have : q = 0 := by omega
              rw [this] at hxq
              simp at hxq
          -- finish of x is at most finish of ordered[q-1] which is ≤ start of ai
          have hple := take_elem_finish_le ordered hsorted q (by omega) hq0 x hxq
          have hpge : 0 ≤ p := by omega
          have hft : (ordered.getD p.toNat dummyActivity).finishMs ≤ ai.startMs := by
            rcases hspec.1 with h | h
            · omega
            · have h2 := h.2
              rw [List.getD_eq_getElem _ _ (by simp; omega), List.getElem_map] at h2
              rw [List.getD_eq_getElem _ _ (by omega)]
              exact h2
          have hq1 : q - 1 = p.toNat := by omega
          rw [hq1] at hple
          omega
        · rw [List.map_append, List.sum_append]
          simp only [List.map_cons, List.map_nil, List.sum_cons, List.sum_nil]
          rw [ihsum]
          rw [bestVal_succ, if_pos hcond]
          rw [includeValue_eq ordered i' (by omega)]
          rw [← hp, ← hq, ← hai]
          omega
      · rw [if_neg (by simpa using hcond)]
        obtain ⟨ihsub, ihchain, ihsum⟩ := ih i' (by omega) (by omega)
        refine ⟨?_, ihchain, ?_⟩
        · rw [htake]
          exact ihsub.trans (by simp)
        · rw [ihsum, bestVal_succ, if_neg hcond, excludeValue_eq]

theorem chain_to_pairwise : ∀ (l : List TimedActivity),
    List.Chain' (fun a b => a.finishMs ≤ b.startMs) l →
    (∀ x ∈ l, x.startMs < x.finishMs) →
    l.Pairwise (fun a b => a.finishMs ≤ b.startMs) := by
  intro l
  induction l with
  | nil => intro _ _; simp
  | cons x xs ih =>
    intro hchain hpos
    rw [List.chain'_cons'] at hchain
    have hpw := ih hchain.2 (fun y hy => hpos y (by simp [hy]))
    refine List.pairwise_cons.mpr ⟨?_, hpw⟩
    intro y hy
    cases xs with
    | nil => simp at hy
    | cons h t =>
      have hxh : x.finishMs ≤ h.startMs := hchain.1 h rfl
      rcases List.mem_cons.mp hy with rfl | hy
      · exact hxh
      · have hhy := (List.pairwise_cons.mp hpw).1 y hy
        have := hpos h (by simp)
        omega

theorem nonoverlap_sorted_chain (t : List TimedActivity)
    (hnov : t.Pairwise (fun a b =>
      a.finishMs ≤ b.startMs ∨ b.finishMs ≤ a.startMs))
    (hfin : t.Pairwise (fun a b => a.finishMs ≤ b.finishMs))
    (hpos : ∀ x ∈ t, x.startMs < x.finishMs) :
    List.Chain' (fun a b => a.finishMs ≤ b.startMs) t := by
  have hpw : t.Pairwise (fun a b => a.finishMs ≤ b.startMs) := by
    refine List.Pairwise.imp_of_mem ?_ (hnov.and hfin)
    intro a b ha hb hab
    rcases hab.1 with h | h
    · exact h
    · have := hpos a ha
      have := hab.2
      omega
  exact hpw.chain'

theorem subperm_nonoverlap_le (acts : List TimedActivity)
    (hpos : ∀ a ∈ acts, a.startMs < a.finishMs)
    (s : List TimedActivity) (hsp : List.Subperm s acts)
    (hnov : s.Pairwise (fun a b =>
      a.finishMs ≤ b.startMs ∨ b.finishMs ≤ a.startMs)) :
    (s.map (fun a => a.durationMs)).sum ≤
      bestVal (stableSort activityCmp acts) (stableSort activityCmp acts).length := by
  set ordered := stableSort activityCmp acts with hord
  have hperm : List.Perm ordered acts := stableSort_perm activityCmp acts
  have hsorted : ordered.Pairwise (fun a b => a.finishMs ≤ b.finishMs) :=
    sorted_finish acts
  have hsp2 : List.Subperm s ordered := hperm.subperm_left.mpr hsp
  obtain ⟨t, htp, hts⟩ := hsp2
  have hnovt : t.Pairwise (fun a b =>
      a.finishMs ≤ b.startMs ∨ b.finishMs ≤ a.startMs) :=
    (htp.pairwise_iff (fun h => Or.symm h)).mpr hnov
  have hfint : t.Pairwise (fun a b => a.finishMs ≤ b.finishMs) :=
    hsorted.sublist hts
  have hpost : ∀ x ∈ t, x.startMs < x.finishMs := by
    intro x hx
    exact hpos x (hperm.subset (hts.subset hx))
  have hchain := nonoverlap_sorted_chain t hnovt hfint hpost
  have hsum : (t.map (fun a => a.durationMs)).sum =
      (s.map (fun a => a.durationMs)).sum := (htp.map _).sum_eq
  rw [← hsum]
  have := bestVal_upper ordered hsorted ordered.length (le_refl _) t
    (by rw [List.take_length]; exact hts) hchain
  exact this

theorem computeCriticalPath_main (acts : List TimedActivity)
    (hpos : ∀ a ∈ acts, a.startMs < a.finishMs ∧ 0 < a.durationMs) :
    (∃ path : List TimedActivity,
      (computeCriticalPath acts).nodeIds = path.map (fun a => a.id) ∧
      List.Subperm path acts ∧
      path.Pairwise (fun a b => a.finishMs ≤ b.startMs ∨ b.finishMs ≤ a.startMs) ∧
      List.Chain' (fun a b => a.finishMs ≤ b.startMs) path ∧
      (computeCriticalPath acts).durationMs =
        (path.map (fun a => a.durationMs)).sum ∧
      (∀ s : List TimedActivity, List.Subperm s acts →
        s.Pairwise (fun a b => a.finishMs ≤ b.startMs ∨ b.finishMs ≤ a.startMs) →
        (s.map (fun a => a.durationMs)).sum ≤ (computeCriticalPath acts).durationMs)) ∧
    (acts = [] → computeCriticalPath acts =
      ⟨[], 0, "No timed records were available for critical-path inference."⟩) ∧
    (∀ i : Nat, i < (stableSort activityCmp acts).length →
      ((chooseList (stableSort activityCmp acts)
          (stableSort activityCmp acts).length).getD (i + 1) false = true ↔
        includeValue (stableSort activityCmp acts) i ≥
          excludeValue (stableSort activityCmp acts) i)) := by
  refine ⟨?_, ?_, ?_⟩
  · by_cases hacts : acts = []
    · subst hacts
      refine ⟨[], rfl, ?_, by simp, by simp, rfl, ?_⟩
      · simp
      · intro s hs _
        rw [List.subperm_nil.mp hs]
        exact le_refl _
    · set ordered := stableSort activityCmp acts with hord
      set n := ordered.length with hn
      have hperm : List.Perm ordered acts := stableSort_perm activityCmp acts
      have hsorted : ordered.Pairwise (fun a b => a.finishMs ≤ b.finishMs) :=
        sorted_finish acts
      have hne : acts.isEmpty = false := by
        simpa [List.isEmpty_iff] using hacts
      have hcp : computeCriticalPath acts =
          ⟨(walkAux ordered n n n).reverse, (bestList ordered n).getD n 0,
            "Critical path is inferred as the longest non-overlapping chain of timed execution records."⟩ := by
        simp only [computeCriticalPath, hne]
        rfl
      obtain ⟨hwsub, hwchain, hwsum⟩ :=
        walkPath_spec ordered hsorted n n (le_refl _) (by omega)
      rw [List.take_length] at hwsub
      set path := (walkPath ordered n n n).reverse with hpath
      have hpathpos : ∀ x ∈ path, x.startMs < x.finishMs := by
        intro x hx
        exact (hpos x (hperm.subset (hwsub.subset hx))).1
      have hchainpw := chain_to_pairwise path hwchain hpathpos
      refine ⟨path, ?_, ?_, ?_, hwchain, ?_, ?_⟩
      · rw [hcp]
        show (walkAux ordered n n n).reverse = _
        rw [walkAux_eq_map, ← List.map_reverse]
      · exact hperm.subperm_left.mp hwsub.subperm
      · exact hchainpw.imp (fun h => Or.inl h)
      · rw [hcp]
        show (bestList ordered n).getD n 0 = _
        rw [hwsum]
        rfl
      · intro s hsp hsnov
        rw [hcp]
        show (s.map (fun a => a.durationMs)).sum ≤ (bestList ordered n).getD n 0
        exact subperm_nonoverlap_le acts (fun a ha => (hpos a ha).1) s hsp hsnov
  · intro hacts
    subst hacts
    rfl
  · intro i hi
    rw [chooseList_getD _ _ i hi]
    simp

/-- C1: for every list of timed activities (start < finish, positive
duration), `computeCriticalPath` returns the ids of a pairwise
non-overlapping, chronologically ordered sub-multiset of the activities whose
total duration is maximal among all non-overlapping sub-multisets; each DP
tie is resolved in favor of inclusion (`includeValue ≥ excludeValue`); with
no qualifying activities it returns an empty path, 0 duration, and the
"not enough data" explanation. -/
theorem computeCriticalPath_correct (acts : List TimedActivity)
    (hpos : ∀ a ∈ acts, a.startMs < a.finishMs ∧ 0 < a.durationMs) :
    (∃ path : List TimedActivity,
      (computeCriticalPath acts).nodeIds = path.map (fun a => a.id) ∧
      List.Subperm path acts ∧
      path.Pairwise (fun a b => a.finishMs ≤ b.startMs ∨ b.finishMs ≤ a.startMs) ∧
      List.Chain' (fun a b => a.finishMs ≤ b.startMs) path ∧
      (computeCriticalPath acts).durationMs =
        (path.map (fun a => a.durationMs)).sum ∧
      (∀ s : List TimedActivity, List.Subperm s acts →
        s.Pairwise (fun a b => a.finishMs ≤ b.startMs ∨ b.finishMs ≤ a.startMs) →
        (s.map (fun a => a.durationMs)).sum ≤ (computeCriticalPath acts).durationMs)) ∧
    (acts = [] → computeCriticalPath acts =
      ⟨[], 0, "No timed records were available for critical-path inference."⟩) ∧
    (∀ i : Nat, i < (stableSort activityCmp acts).length →
      ((chooseList (stableSort activityCmp acts)
          (stableSort activityCmp acts).length).getD (i + 1) false = true ↔
        includeValue (stableSort activityCmp acts) i ≥
          excludeValue (stableSort activityCmp acts) i)) :=
  computeCriticalPath_main acts hpos

theorem buildTimedActivities_mem (nodesById : List (String × TimelineNode))
    (ids : List String) (a : TimedActivity)
    (ha : a ∈ buildTimedActivities nodesById ids) :
    ∃ (id : String) (node : TimelineNode), alistGet? nodesById id = some node ∧
      node.startTime = some a.startMs ∧ node.finishTime = some a.finishMs ∧
      0 < node.durationMs ∧ a = ⟨node.id, a.startMs, a.finishMs, node.durationMs⟩ := by
  have aux : ∀ (l : List String) (acc : List TimedActivity),
      a ∈ l.foldl (fun acc id =>
        match alistGet? nodesById id with
        | some node =>
          match node.startTime, node.finishTime with
          | some s, some f =>
            if node.durationMs ≤ 0 then acc
            else acc ++ [⟨node.id, s, f, node.durationMs⟩]
          | _, _ => acc
        | none => acc) acc →
      a ∈ acc ∨ ∃ (id : String) (node : TimelineNode),
        alistGet? nodesById id = some node ∧
        node.startTime = some a.startMs ∧ node.finishTime = some a.finishMs ∧
        0 < node.durationMs ∧ a = ⟨node.id, a.startMs, a.finishMs, node.durationMs⟩ := by
    intro l
    induction l with
    | nil => intro acc h; exact Or.inl h
    | cons id rest ih =>
      intro acc h
      simp only [List.foldl_cons] at h
      rcases hget : alistGet? nodesById id with _ | node
      · simp only [hget] at h
        exact ih acc h
      · simp only [hget] at h
        rcases hst : node.startTime with _ | s
        · simp only [hst] at h
          exact ih acc h
        · rcases hft : node.finishTime with _ | f
          · simp only [hst, hft] at h
            exact ih acc h
          · simp only [hst, hft] at h
            by_cases hdur : node.durationMs ≤ 0
            · rw [if_pos hdur] at h
              exact ih acc h
            · rw [if_neg hdur] at h
              rcases ih _ h with hin | hex
              · rcases List.mem_append.mp hin with hin | hin
                · exact Or.inl hin
                · rcases List.mem_singleton.mp hin with rfl
                  exact Or.inr ⟨id, node, hget, hst, hft, by omega, rfl⟩
              · exact Or.inr hex
  rcases aux ids [] ha with h | h
  · simp at h
  · exact h

theorem findTimelineRange_bounds (nodes : List TimelineNode) :
    ∀ n ∈ nodes, ∀ s f, n.startTime = some s → n.finishTime = some f →
      ∃ r, findTimelineRange nodes = some r ∧ r.minStartMs ≤ s ∧ f ≤ r.maxFinishMs := by
  have aux : ∀ (l : List TimelineNode) (acc : Option RangeSummary),
      (∀ n ∈ l, ∀ s f, n.startTime = some s → n.finishTime = some f →
        ∃ r, (l.foldl (fun acc node =>
          match node.startTime, node.finishTime with
          | some s, some f =>
            match acc with
            | none => some ⟨s, f⟩
            | some r => some ⟨min r.minStartMs s, max r.maxFinishMs f⟩
          | _, _ => acc) acc) = some r ∧ r.minStartMs ≤ s ∧ f ≤ r.maxFinishMs) ∧
      (∀ r0, acc = some r0 →
        ∃ r, (l.foldl (fun acc node =>
          match node.startTime, node.finishTime with
          | some s, some f =>
            match acc with
            | none => some ⟨s, f⟩
            | some r => some ⟨min r.minStartMs s, max r.maxFinishMs f⟩
          | _, _ => acc) acc) = some r ∧ r.minStartMs ≤ r0.minStartMs ∧
          r0.maxFinishMs ≤ r.maxFinishMs) := by
    intro l
    induction l with
    | nil =>
      intro acc
      constructor
      · intro n hn; simp at hn
      · intro r0 h
        exact ⟨r0, by simpa using h, le_refl _, le_refl _⟩
    | cons x rest ih =>
      intro acc
      constructor
      · intro n hn s f hs hf
        rcases List.mem_cons.mp hn with rfl | hn
        · -- the node is processed first
          simp only [List.foldl_cons, hs, hf]
          cases acc with
          | none =>
            obtain ⟨r, hr, h1, h2⟩ := (ih (some ⟨s, f⟩)).2 ⟨s, f⟩ rfl
            exact ⟨r, hr, h1, h2⟩
          | some r0 =>
            obtain ⟨r, hr, h1, h2⟩ := (ih (some ⟨min r0.minStartMs s,
              max r0.maxFinishMs f⟩)).2 _ rfl
            refine ⟨r, hr, ?_, ?_⟩
            · calc r.minStartMs ≤ min r0.minStartMs s := h1
                _ ≤ s := min_le_right _ _
            · calc f ≤ max r0.maxFinishMs f := le_max_right _ _
                _ ≤ r.maxFinishMs := h2
        · simp only [List.foldl_cons]
          exact (ih _).1 n hn s f hs hf
      · intro r0 h
        simp only [List.foldl_cons]
        rcases hxs : x.startTime with _ | s
        · simp only [hxs]
          exact (ih acc).2 r0 h
        · rcases hxf : x.finishTime with _ | f
          · simp only [hxs, hxf]
            exact (ih acc).2 r0 h
          · simp only [hxs, hxf]
            subst h
            obtain ⟨r, hr, h1, h2⟩ := (ih (some ⟨min r0.minStartMs s,
              max r0.maxFinishMs f⟩)).2 _ rfl
            refine ⟨r, hr, ?_, ?_⟩
            · calc r.minStartMs ≤ min r0.minStartMs s := h1
                _ ≤ r0.minStartMs := min_le_left _ _
            · calc r0.maxFinishMs ≤ max r0.maxFinishMs f := le_max_left _ _
                _ ≤ r.maxFinishMs := h2
  intro n hn s f hs hf
  exact (aux nodes none).1 n hn s f hs hf

theorem selectCriticalPathActivities_mem (graph : TimelineGraph) (a : TimedActivity)
    (ha : a ∈ selectCriticalPathActivities graph) :
    ∃ (id : String) (node : TimelineNode), alistGet? graph.nodesById id = some node ∧
      node.startTime = some a.startMs ∧ node.finishTime = some a.finishMs ∧
      0 < node.durationMs ∧ a = ⟨node.id, a.startMs, a.finishMs, node.durationMs⟩ := by
  simp only [selectCriticalPathActivities] at ha
  split at ha
  all_goals split at ha
  all_goals exact buildTimedActivities_mem _ _ _ ha

theorem chain_sum_le_span : ∀ (path : List TimedActivity), path ≠ [] →
    (∀ a ∈ path, a.durationMs = a.finishMs - a.startMs) →
    List.Chain' (fun a b => a.finishMs ≤ b.startMs) path →
    (path.map (fun a => a.durationMs)).sum ≤
      (path.getLast?.getD dummyActivity).finishMs -
        (path.head?.getD dummyActivity).startMs := by
  intro path
  induction path with
  | nil => intro hne; exact absurd rfl hne
  | cons a rest ih =>
    intro hne hdur hchain
    cases rest with
    | nil =>
      have := hdur a (List.mem_cons_self a [])
      simp only [List.map_cons, List.map_nil, List.sum_cons, List.sum_nil, add_zero,
        List.getLast?_singleton, List.head?_cons, Option.getD_some]
      omega
    | cons b t =>
      have hab : a.finishMs ≤ b.startMs := (List.chain'_cons.mp hchain).1
      have hchain' : List.Chain' (fun a b => a.finishMs ≤ b.startMs) (b :: t) :=
        (List.chain'_cons.mp hchain).2
      have hih := ih (List.cons_ne_nil b t)
        (fun x hx => hdur x (List.mem_cons_of_mem a hx)) hchain'
      have hda := hdur a (List.mem_cons_self a _)
      simp only [List.map_cons, List.sum_cons, List.head?_cons, Option.getD_some] at hih ⊢
      rw [List.getLast?_cons_cons]
      omega

theorem wallClock_nonneg (graph : TimelineGraph) : 0 ≤ computeWallClockDurationMs graph := by
  unfold computeWallClockDurationMs
  simp only []
  split
  · exact le_refl 0
  · exact le_max_left _ _

theorem sublist_sum_le (l1 l2 : List Int) (h : List.Sublist l1 l2)
    (hpos : ∀ x ∈ l2, 0 ≤ x) : l1.sum ≤ l2.sum := by
  induction h with
  | slnil => simp
  | cons x h ih =>
    have := hpos x (List.mem_cons_self x _)
    have := ih (fun y hy => hpos y (List.mem_cons_of_mem x hy))
    simp only [List.sum_cons]
    omega
  | cons₂ x h ih =>
    have := ih (fun y hy => hpos y (List.mem_cons_of_mem x hy))
    simp only [List.sum_cons]
    omega

/-- C3: for every timeline graph satisfying the normalizer invariants (every
node reachable through `nodesById` is one of the graph nodes, and every
node's `durationMs` equals `computeDuration` of its times), the critical-path
duration computed by `analyzeTimeline`'s pipeline is at most the wall-clock
duration of `computePipelineMetrics`, and at most the sum of the durations of
all qualifying timed activities. -/
theorem criticalPath_le_wallClock (graph : TimelineGraph)
    (hvals : ∀ (id : String) (node : TimelineNode),
      alistGet? graph.nodesById id = some node → node ∈ graph.nodes)
    (hdur : ∀ node ∈ graph.nodes,
      node.durationMs = computeDuration node.startTime node.finishTime) :
    (computeCriticalPath (selectCriticalPathActivities graph)).durationMs ≤
      computeWallClockDurationMs graph ∧
    (computeCriticalPath (selectCriticalPathActivities graph)).durationMs ≤
      ((selectCriticalPathActivities graph).map (fun a => a.durationMs)).sum := by
  set acts := selectCriticalPathActivities graph with hacts
  have hact : ∀ a ∈ acts, a.startMs < a.finishMs ∧ 0 < a.durationMs ∧
      a.durationMs = a.finishMs - a.startMs ∧
      ∃ node ∈ graph.nodes, node.startTime = some a.startMs ∧
        node.finishTime = some a.finishMs := by
    intro a ha
    obtain ⟨id, node, hget, hs, hf, hd, hae⟩ := selectCriticalPathActivities_mem graph a ha
    have hmem := hvals id node hget
    have hdeq := hdur node hmem
    rw [hs, hf] at hdeq
    simp only [computeDuration, Option.getD_some] at hdeq
    have hadur : a.durationMs = node.durationMs := by rw [hae]
    refine ⟨by omega, by omega, by omega, node, hmem, hs, hf⟩
  have hpos : ∀ a ∈ acts, a.startMs < a.finishMs ∧ 0 < a.durationMs :=
    fun a ha => ⟨(hact a ha).1, (hact a ha).2.1⟩
  obtain ⟨⟨path, hids, hsub, hpw, hchain, hsum, hopt⟩, -, -⟩ :=
    computeCriticalPath_main acts hpos
  constructor
  · by_cases hne : path = []
    · rw [hsum, hne]
      simp only [List.map_nil, List.sum_nil]
      exact wallClock_nonneg graph
    · have hsub' := hsub.subset
      have hdur' : ∀ x ∈ path, x.durationMs = x.finishMs - x.startMs :=
        fun x hx => (hact x (hsub' hx)).2.2.1
      have hspan := chain_sum_le_span path hne hdur' hchain
      rcases hlq : path.getLast? with _ | last
      · exact absurd (List.getLast?_eq_none_iff.mp hlq) hne
      rcases hhq : path.head? with _ | hd
      · exact absurd (List.head?_eq_none_iff.mp hhq) hne
      have hlast_mem : last ∈ path := by
        obtain ⟨h, heq⟩ := List.mem_getLast?_eq_getLast (show last ∈ path.getLast? from hlq)
        rw [heq]
        exact List.getLast_mem h
      have hhead_mem : hd ∈ path := List.mem_of_mem_head? hhq
      obtain ⟨-, -, -, nh, hnh_mem, hnh_s, hnh_f⟩ := hact hd (hsub' hhead_mem)
      obtain ⟨-, -, -, nl, hnl_mem, hnl_s, hnl_f⟩ := hact last (hsub' hlast_mem)
      set timedNodes := graph.nodes.filter
        (fun n => n.startTime.isSome && n.finishTime.isSome) with htimed
      have hnh_t : nh ∈ timedNodes := by
        rw [htimed]
        exact List.mem_filter.mpr ⟨hnh_mem, by rw [hnh_s, hnh_f]; rfl⟩
      have hnl_t : nl ∈ timedNodes := by
        rw [htimed]
        exact List.mem_filter.mpr ⟨hnl_mem, by rw [hnl_s, hnl_f]; rfl⟩
      obtain ⟨r1, hr1, hmin, -⟩ :=
        findTimelineRange_bounds timedNodes nh hnh_t _ _ hnh_s hnh_f
      obtain ⟨r2, hr2, -, hmax⟩ :=
        findTimelineRange_bounds timedNodes nl hnl_t _ _ hnl_s hnl_f
      rw [hr1] at hr2
      injection hr2 with hr12
      subst hr12
      have hwc : computeWallClockDurationMs graph =
          max 0 (r1.maxFinishMs - r1.minStartMs) := by
        unfold computeWallClockDurationMs
        simp only []
        rw [← htimed, hr1]
      rw [hsum, hwc]
      rw [hlq, hhq] at hspan
      simp only [Option.getD_some] at hspan
      omega
  · obtain ⟨t, hperm, hsubl⟩ := hsub
    have h1 : (path.map (fun a => a.durationMs)).sum =
        (t.map (fun a => a.durationMs)).sum := ((hperm.map _).sum_eq).symm
    have h2 : List.Sublist (t.map (fun a => a.durationMs))
        (acts.map (fun a => a.durationMs)) := hsubl.map _
    have h3 := sublist_sum_le _ _ h2 (by
      intro x hx
      obtain ⟨a, ha, rfl⟩ := List.mem_map.mp hx
      exact le_of_lt (hpos a ha).2)
    rw [hsum]
    omega

/-- Witness for C1 at a concrete three-activity list. -/
theorem computeCriticalPath_correct_witness :
    (∃ path : List TimedActivity,
      (computeCriticalPath cpActs).nodeIds = path.map (fun a => a.id) ∧
      List.Subperm path cpActs ∧
      path.Pairwise (fun a b => a.finishMs ≤ b.startMs ∨ b.finishMs ≤ a.startMs) ∧
      List.Chain' (fun a b => a.finishMs ≤ b.startMs) path ∧
      (computeCriticalPath cpActs).durationMs = (path.map (fun a => a.durationMs)).sum ∧
      (∀ s, List.Subperm s cpActs →
        s.Pairwise (fun a b => a.finishMs ≤ b.startMs ∨ b.finishMs ≤ a.startMs) →
        (s.map (fun a => a.durationMs)).sum ≤ (computeCriticalPath cpActs).durationMs)) ∧
    (cpActs = [] → computeCriticalPath cpActs =
      ⟨[], 0, "No timed records were available for critical-path inference."⟩) ∧
    (∀ i < (stableSort activityCmp cpActs).length,
      ((chooseList (stableSort activityCmp cpActs)
          ((stableSort activityCmp cpActs).length)).getD (i + 1) false = true ↔
        includeValue (stableSort activityCmp cpActs) i ≥
          excludeValue (stableSort activityCmp cpActs) i)) :=
  computeCriticalPath_correct cpActs (by decide)

theorem alistGet?_mem_values {α : Type} (m : List (String × α)) (k : String) (v : α)
    (h : alistGet? m k = some v) : v ∈ m.map (fun p => p.2) := by
  unfold alistGet? at h
  obtain ⟨p, hp, hpv⟩ := Option.map_eq_some'.mp h
  have hm := List.mem_of_find?_eq_some hp
  exact hpv ▸ List.mem_map_of_mem _ hm

/-- Witness for C3 at a concrete two-step graph. -/
theorem criticalPath_le_wallClock_witness :
    (computeCriticalPath (selectCriticalPathActivities wcGraph)).durationMs ≤
      computeWallClockDurationMs wcGraph ∧
    (computeCriticalPath (selectCriticalPathActivities wcGraph)).durationMs ≤
      ((selectCriticalPathActivities wcGraph).map (fun a => a.durationMs)).sum :=
  criticalPath_le_wallClock wcGraph
    (by
      intro id node h
      have hv := alistGet?_mem_values _ _ _ h
      simp only [wcGraph, List.map_cons, List.map_nil, List.mem_cons,
        List.not_mem_nil, or_false] at hv
      rcases hv with rfl | rfl <;> simp [wcGraph])
    (by decide)

